import Mathlib

/-!
Verification of the seppl library (simple entry point pipelines) against its
natural-language specification.  The definitions below are shallow embeddings
of the Python sources:

* `src/seppl/_args.py`        : `resolve_handler`, `split_args`
* `src/seppl/_plugin.py`      : `check_compatibility`
* `src/seppl/_registry.py`    : `Registry._register_plugin`
* `src/seppl/io/_execution.py`: the batch-mode decision in `execute`
* `src/seppl/io/_split.py`    : `gcd`, `Splitter.initialize`, `Splitter.next`
* `src/seppl/io/_filter.py`   : `FilterPipelineIterator.__next__`

Python strings are Lean `String`, Python ints are `Int`/`Nat`, Python lists
are Lean `List`, Python dicts (insertion ordered) are association lists, and
raising an exception is `Except`.  Loops are translated into structural
recursions; the unbounded `while` loop of `FilterPipelineIterator.__next__`
takes explicit fuel (`none` = fuel exhausted; the concrete runs below always
terminate within the supplied fuel).
-/

namespace Seppl

/-! ## Embedding of src/seppl/_args.py -/

/-- Python str.startswith, on the underlying character lists. -/
def strStartsWith (pre s : String) : Bool :=
  pre.toList.isPrefixOf s.toList

/-- Embedding of resolve_handler (src/seppl/_args.py, lines 55-82).
The Python handlers argument is a set; we model it as the list of its
elements.  Exact match wins; with allowPart, a unique prefix match is
returned (matches is the list of handlers starting with search, and
matches[0] is returned exactly when len(matches) == 1). -/
def resolve_handler (search : String) (handlers : List String) (allowPart : Bool) : Option String :=
  if search ∈ handlers then some search
  else if allowPart then
    match handlers.filter (fun h => strStartsWith search h) with
    | [m] => some m
    | _ => none
  else none

/-- Python dict assignment d[key] = value on an insertion-ordered
association list: an existing key keeps its position and gets the new
value, a fresh key is appended.  (A dict never holds duplicate keys, and
starting from the empty dict dictInsert preserves that.) -/
def dictInsert (res : List (String × List String)) (k : String)
    (v : List String) : List (String × List String) :=
  if (res.lookup k).isSome then
    res.map (fun p => if p.1 = k then (k, v) else p)
  else res ++ [(k, v)]

/-- Loop of split_args (src/seppl/_args.py, lines 109-124): state is the
result dict (insertion-ordered association list with dict-assignment
semantics), last_handler and last_args.  Keys are produced with
str(len(result)) = Nat.repr; the dict size res.length is taken before the
assignment, as in Python. -/
def splitArgsGo (handlers : List String) (allowPart : Bool)
    (res : List (String × List String)) (lastHandler : String)
    (lastArgs : List String) : List String → List (String × List String)
  | [] => if lastArgs = [] then res else dictInsert res (Nat.repr res.length) lastArgs
  | arg :: rest =>
    match resolve_handler arg handlers allowPart with
    | some handler =>
      let res' := if lastHandler.length > 0
        then dictInsert res (Nat.repr res.length) lastArgs
        else dictInsert res "" lastArgs
      splitArgsGo handlers allowPart res' handler [handler] rest
    | none => splitArgsGo handlers allowPart res lastHandler (lastArgs ++ [arg]) rest

/-- Embedding of split_args (src/seppl/_args.py, lines 85-125) with
unescape=False.  handlers_set = set(handlers) is modelled by dedup. -/
def split_args (args : List String) (handlers : List String) (allowPart : Bool) :
    List (String × List String) :=
  splitArgsGo handlers.dedup allowPart [] "" [] args

/-- Decimal value of a digit character (helper for reasoning about the
str(len(result)) keys produced by Nat.repr). -/
def charVal (c : Char) : Nat := c.toNat - 48

/-- Base-10 value accumulated over a digit string, starting from a. -/
def digitsVal (a : Nat) (l : List Char) : Nat :=
  l.foldl (fun x c => x * 10 + charVal c) a

/-! ## Embedding of the batch-mode decision in execute
(src/seppl/io/_execution.py, lines 153-158) -/

/-- Lines 153-158 of src/seppl/io/_execution.py.  Inputs: the force_batch
session option, whether the writer is a BatchWriter, and whether the reader
is an InfiniteReader whose is_infinite() returns True.  Output: the final
batch_mode flag and whether the disable-warning was logged. -/
def decideBatchMode (forceBatch writerIsBatch readerInfinite : Bool) : Bool × Bool :=
  let batchMode := forceBatch || writerIsBatch
  if readerInfinite then
    (false, forceBatch)
  else
    (batchMode, false)

/-! ## Embedding of src/seppl/io/_split.py -/

/-- Embedding of gcd (src/seppl/io/_split.py, lines 9-25): requires at
least two values, then folds math.gcd over the list. -/
def gcdList : List Int → Except String Int
  | [] => .error "At least two numbers required for gcd!"
  | [_] => .error "At least two numbers required for gcd!"
  | v :: rest => .ok (rest.foldl (fun acc b => (Int.gcd acc b : Int)) v)

/-- The schedule loop of Splitter.initialize (lines 67-69): prefix sums of
ratio / gcd starting from acc.  Python computes ratio / _gcd with float
division; since the gcd divides every ratio the quotient is an exact
integer, so integer division (/ on Int) is the same value. -/
def buildSchedule (g : Int) : List Int → Int → List Int
  | [], acc => [acc]
  | r :: rest, acc => acc :: buildSchedule g rest (acc + r / g)

/-- State of a Splitter after initialize: the configured ratios and names,
the computed schedule and the rotating counter.  The _stats and _groups
bookkeeping is not modelled (the claims call next with item = None, so the
group logic at lines 92-98 and 116-117 never runs). -/
structure SplitterState where
  ratios : List Int
  names : List String
  schedule : List Int
  counter : Int

/-- Embedding of Splitter.initialize (src/seppl/io/_split.py, lines 52-72)
for non-None ratio and name lists: length check, sum check, then gcd
(which itself raises for fewer than two values) and the schedule. -/
def initializeSplitter (ratios : List Int) (names : List String) :
    Except String SplitterState :=
  if ratios.length ≠ names.length then
    .error "Differing number of split ratios and names"
  else if ratios.sum ≠ 100 then
    .error "Split ratios must sum up to 100"
  else
    match gcdList ratios with
    | .error e => .error e
    | .ok g =>
      .ok { ratios := ratios, names := names,
            schedule := buildSchedule g ratios 0, counter := 0 }

/-- The selection loop of Splitter.next (lines 100-103): for each i in
range(len(names)), if schedule[i] <= counter < schedule[i+1] the split is
set to names[i]; the last match wins. -/
def selectSplit (names : List String) (schedule : List Int) (counter : Int) :
    Option String :=
  (List.range names.length).foldl
    (fun acc i =>
      if schedule.getD i 0 ≤ counter ∧ counter < schedule.getD (i + 1) 0 then
        some (names.getD i "")
      else acc)
    none

/-- Embedding of Splitter.next (src/seppl/io/_split.py, lines 82-119) with
item = None (no group matching): select the split, increment the counter and
reset it to 0 when it reaches schedule[-1]. -/
def splitterNext (st : SplitterState) : Option String × SplitterState :=
  let split := selectSplit st.names st.schedule st.counter
  let c1 := st.counter + 1
  let c2 := if c1 = st.schedule.getLastD 0 then 0 else c1
  (split, { st with counter := c2 })

/-- Calls splitterNext n times, collecting the returned split names. -/
def runSplitter (st : SplitterState) : Nat → List (Option String) × SplitterState
  | 0 => ([], st)
  | n + 1 =>
    let (o, st') := splitterNext st
    let (os, st'') := runSplitter st' n
    (o :: os, st'')

/-- Boolean ok-test for Except. -/
def exIsOk {ε σ : Type} : Except ε σ → Bool
  | .ok _ => true
  | .error _ => false

/-- Boolean error-test for Except. -/
def exIsErr {ε σ : Type} : Except ε σ → Bool
  | .ok _ => false
  | .error _ => true

/-- Concrete splitter state of the C5 counterexample: ratios [150, -50]
(summing to 100) with names ["a", "b"]; initialize succeeds on it. -/
def exSplitSt : SplitterState :=
  (initializeSplitter [150, -50] ["a", "b"]).toOption.getD ⟨[], [], [], 0⟩

/-! ## Embedding of check_compatibility (src/seppl/_plugin.py, lines 301-343) -/

/-- A plugin as seen by check_compatibility: its name, the classes its
generates() returns (none when it is not an OutputProducer) and the classes
its accepts() returns (none when it is not an InputConsumer).  Python
classes are identified by Nat codes; issubclass is an explicit parameter. -/
structure CPlugin where
  name : String
  generates : Option (List Nat)
  accepts : Option (List Nat)

/-- The three raise sites of check_compatibility, with the pair index. -/
inductive CompatError where
  | notProducer (i : Nat) (name : String)
  | notConsumer (i : Nat) (name : String)
  | incompatible (i : Nat) (name1 name2 : String)
deriving DecidableEq

/-- Line 325: match_all in classes1 or match_all in classes2. -/
def hasWildcard (matchAll : Nat) (cs1 cs2 : List Nat) : Bool :=
  cs1.contains matchAll || cs2.contains matchAll

/-- Lines 327-337: some generated class is in classes2 or is a subclass of
some accepted class. -/
def pairMatchB (sub : Nat → Nat → Bool) (cs1 cs2 : List Nat) : Bool :=
  cs1.any (fun c1 => cs2.contains c1 || cs2.any (fun c2 => sub c1 c2))

/-- The pair loop of check_compatibility (lines 313-342).  Note that the
wildcard test at line 325 executes a return from the whole function, not a
continue, so it ends all checking with success. -/
def checkGo (sub : Nat → Nat → Bool) (matchAll : Nat) (i : Nat) :
    List CPlugin → Except CompatError Unit
  | p1 :: p2 :: rest =>
    match p1.generates with
    | none => .error (.notProducer i p1.name)
    | some cs1 =>
      match p2.accepts with
      | none => .error (.notConsumer (i + 1) p2.name)
      | some cs2 =>
        if hasWildcard matchAll cs1 cs2 then .ok ()
        else if pairMatchB sub cs1 cs2 then checkGo sub matchAll (i + 1) (p2 :: rest)
        else .error (.incompatible i p1.name p2.name)
  | _ => .ok ()

/-- Embedding of check_compatibility (src/seppl/_plugin.py, lines 301-343). -/
def checkCompatibility (sub : Nat → Nat → Bool) (matchAll : Nat)
    (plugins : List CPlugin) : Except CompatError Unit :=
  checkGo sub matchAll 0 plugins

/-- A pair on which the scan stops with an exception: missing producer or
consumer interface, or no wildcard and no subtype match. -/
def pairFails (sub : Nat → Nat → Bool) (matchAll : Nat) (p1 p2 : CPlugin) : Bool :=
  match p1.generates, p2.accepts with
  | none, _ => true
  | some _, none => true
  | some cs1, some cs2 => !hasWildcard matchAll cs1 cs2 && !pairMatchB sub cs1 cs2

/-- A pair past which the scan continues: both interfaces present, no
wildcard on either side, and a subtype match. -/
def pairContinues (sub : Nat → Nat → Bool) (matchAll : Nat) (p1 p2 : CPlugin) : Bool :=
  match p1.generates, p2.accepts with
  | some cs1, some cs2 => !hasWildcard matchAll cs1 cs2 && pairMatchB sub cs1 cs2
  | _, _ => false

/-! ## Embedding of Registry._register_plugin
(src/seppl/_registry.py, lines 331-360) -/

/-- The two ways the uniqueness loop at lines 348-351 can raise: the KeyError
from self._all_plugins[name] when a name is absent, and the explicit
duplicate-name Exception when the class names differ. -/
inductive RegError where
  | keyError (name : String)
  | duplicate (name : String)
deriving DecidableEq

/-- The loop at lines 348-351: for each name in order, look it up in
_all_plugins (KeyError when absent) and raise when the stored class name
differs from the new plugin's class name.  The registry maps plugin names to
class names (get_class_name). -/
def scanNames (reg : List (String × String)) (cls : String) :
    List String → Except RegError Unit
  | [] => .ok ()
  | n :: rest =>
    match reg.lookup n with
    | none => .error (.keyError n)
    | some c => if c ≠ cls then .error (.duplicate n) else scanNames reg cls rest

/-- Python dict assignment d[name] = o: replace in place or append. -/
def insertReg (reg : List (String × String)) (n cls : String) :
    List (String × String) :=
  if (reg.lookup n).isSome then
    reg.map (fun p => if p.1 = n then (n, cls) else p)
  else reg ++ [(n, cls)]

/-- Embedding of Registry._register_plugin (src/seppl/_registry.py, lines
331-360).  names is get_all_names(o) (primary name then aliases), cls is
get_class_name(o), reg is _all_plugins as a name-to-classname map; the d
parameter and _all_aliases bookkeeping do not affect raising and are not
modelled.  Returns the updated registry (unchanged when excluded or when
the uniqueness branch passes). -/
def registerPlugin (excluded enforce : Bool) (reg : List (String × String))
    (names : List String) (cls : String) : Except RegError (List (String × String)) :=
  if excluded then .ok reg
  else
    let present := names.any (fun n => (reg.lookup n).isSome)
    if enforce && present then
      match scanNames reg cls names with
      | .ok _ => .ok reg
      | .error e => .error e
    else
      .ok (names.foldl (fun r n => insertReg r n cls) reg)

/-! ## Embedding of FilterPipelineIterator (src/seppl/io/_filter.py,
lines 237-350) -/

/-- A filter in the pipeline: either a plain BatchFilter, whose process
method is abstracted as a function to Option (None = drop), or a
StreamFilter with its _do_process_stream outputs abstracted as a function
to the list of items it appends, together with the current _stream_output
buffer.  The skip flag is the --skip option (process returns the data
unchanged, process_stream buffers exactly the input). -/
inductive PFilter (α : Type) where
  | batch (skip : Bool) (g : α → Option α)
  | stream (skip : Bool) (f : α → List α) (buf : List α)

/-- Result of one pass of the inner for-loop of __next__ (lines 307-345):
either a value was returned, or the loop ended/broke; both carry the updated
filters and pending list. -/
inductive PassResult (α : Type) where
  | ret (v : α) (fs : List (PFilter α)) (pending : List Nat)
  | done (fs : List (PFilter α)) (pending : List Nat)

/-- What one call of __next__ produces: a yielded value (the raw data
Option on the empty-filter path, some v otherwise) or StopIteration. -/
inductive PipeRes (α : Type) where
  | yld (v : Option α)
  | stop
deriving DecidableEq

/-- State of a FilterPipelineIterator (constructor at lines 242-262, with
session = None).  pending_filters holds filter objects in Python; since the
code recovers their positions with self.filters.index (distinct filter
instances), we store the chain indices directly. -/
structure PipeState (α : Type) where
  data : Option α
  filters : List (PFilter α)
  finished : Bool
  pending : List Nat
  first : Bool

/-- Embedding of the constructor (lines 242-262): filters = None becomes
the empty list, first = True, finished = False, no pending filters. -/
def mkIterator {α : Type} (data : Option α) (filters : Option (List (PFilter α))) :
    PipeState α :=
  { data := data, filters := filters.getD [], finished := false,
    pending := [], first := true }

/-- Line 296: start_index = self.filters.index(self.pending_filters[-1]),
or 0 when no filter is pending (line 298). -/
def startIndex {α : Type} (st : PipeState α) : Nat :=
  match st.pending.getLast? with
  | some j => j
  | none => 0

/-- The inner for-loop of __next__ (lines 307-345), from position i, with
fuel bounding the remaining positions (callers pass fs.length, an upper
bound, and the recursion stops by itself once i runs off the list).
output = None means the pass is draining buffered output (lines 313-324):
at a StreamFilter with buffered output the last pending entry is popped,
one item is taken, and the filter is re-appended when more remains.
output = some v feeds v to the filter at i (lines 326-337). -/
def runFilters {α : Type} : Nat → List (PFilter α) → List Nat → Option α → Nat →
    PassResult α
  | 0, fs, pending, _, _ => .done fs pending
  | fuel + 1, fs, pending, output, i =>
    match fs[i]? with
    | none => .done fs pending
    | some curr =>
      match output with
      | none =>
        match curr with
        | .batch _ _ => .done fs pending
        | .stream sk f buf =>
          match buf with
          | [] => .done fs pending
          | x :: xs =>
            let pending1 := if pending = [] then pending else pending.dropLast
            let fs' := fs.set i (.stream sk f xs)
            let pending2 := if xs.isEmpty then pending1 else pending1 ++ [i]
            if i = fs.length - 1 then .ret x fs' pending2
            else runFilters fuel fs' pending2 (some x) (i + 1)
      | some v =>
        match curr with
        | .stream sk f _ =>
          match (if sk then [v] else f v) with
          | [] => .done (fs.set i (.stream sk f [])) pending
          | x :: xs =>
            let fs' := fs.set i (.stream sk f xs)
            let pending' := if xs.isEmpty then pending else pending ++ [i]
            if i = fs.length - 1 then .ret x fs' pending'
            else runFilters fuel fs' pending' (some x) (i + 1)
        | .batch sk g =>
          match (if sk then some v else g v) with
          | none => .done fs pending
          | some o =>
            if i = fs.length - 1 then .ret o fs pending
            else runFilters fuel fs pending (some o) (i + 1)

/-- The while-loop of __next__ (lines 290-350), with fuel for the unbounded
loop (none = fuel exhausted).  Each iteration computes the start index,
feeds the raw data on the first pull, runs the filter pass, and either
yields the returned value or sets finished when no filter is pending. -/
def pipeLoop {α : Type} : Nat → PipeState α → Option (PipeRes α × PipeState α)
  | 0, _ => none
  | fuel + 1, st =>
    if st.finished then some (.stop, st)
    else
      let start := startIndex st
      let output := if st.first then st.data else none
      match runFilters st.filters.length st.filters st.pending output start with
      | .ret v fs' p' =>
        some (.yld (some v), { st with filters := fs', pending := p', first := false })
      | .done fs' p' =>
        pipeLoop fuel
          { st with filters := fs', pending := p', first := false,
                    finished := p'.isEmpty }

/-- Embedding of __next__ (lines 273-350): StopIteration when finished
(line 281), the empty-filter fast path (lines 284-288) which yields the raw
data once, else the while loop. -/
def pipeNext {α : Type} (fuel : Nat) (st : PipeState α) :
    Option (PipeRes α × PipeState α) :=
  if st.finished then some (.stop, st)
  else if st.first ∧ st.filters.isEmpty then
    some (.yld st.data, { st with first := false, finished := true })
  else pipeLoop fuel st

/-- n successive calls of __next__, collecting their results. -/
def runPulls {α : Type} (fuel : Nat) : Nat → PipeState α → Option (List (PipeRes α))
  | 0, _ => some []
  | n + 1, st =>
    match pipeNext fuel st with
    | none => none
    | some (r, st') => (runPulls fuel n st').map (fun rs => r :: rs)

/-- Invariant of reachable iterator states: pending chain indices strictly
increase, stay inside the filter list, and the first pull starts with no
pending filter. -/
def PipeInv {α : Type} (st : PipeState α) : Prop :=
  st.pending.Sorted (· < ·) ∧ (∀ j ∈ st.pending, j < st.filters.length) ∧
    (st.first = true → st.pending = [])

/-- A stream filter that duplicates its input, as two Python instances
would appear in the C1 counterexample pipeline. -/
def exDup : PFilter Nat := .stream false (fun v => [v, v]) []

/-- Fresh iterator over two duplicating stream filters and the input 0. -/
def exSt0 : PipeState Nat := mkIterator (some 0) (some [exDup, exDup])

/-- The iterator state after the first pull of exSt0. -/
def exSt1 : PipeState Nat :=
  match pipeNext 9 exSt0 with
  | some (_, st) => st
  | none => exSt0

/-- The pending list carried by a pass result. -/
def passPending {α : Type} : PassResult α → List Nat
  | .ret _ _ p => p
  | .done _ p => p

/-- The filter list carried by a pass result. -/
def passFilters {α : Type} : PassResult α → List (PFilter α)
  | .ret _ fs _ => fs
  | .done fs _ => fs

/-- Concrete splitter state for the C5 witness: ratios [70, 30] with names
["tr", "te"]. -/
def exSplitSt70 : SplitterState :=
  (initializeSplitter [70, 30] ["tr", "te"]).toOption.getD ⟨[], [], [], 0⟩

/-! ## Theorems -/

/-- C4 counterexample: with force_batch off, a BatchWriter and an infinite
reader, batch mode is disabled but no warning is logged, contradicting the
claim that the warning is emitted regardless of how batch mode arose. -/
theorem C4_counterexample :
    decideBatchMode false true true = (false, false) ∧
    (decideBatchMode false true true).2 ≠ true := by
  decide

/-- C4 (amended): whenever the reader reports unbounded output, batch mode
is disabled, but the warning is logged exactly when batch mode was requested
through the force-batch option (not when it was merely implied by a batch
writer). -/
theorem C4_infinite_disables_batch (forceBatch writerIsBatch : Bool) :
    (decideBatchMode forceBatch writerIsBatch true).1 = false ∧
    (decideBatchMode forceBatch writerIsBatch true).2 = forceBatch := by
  exact ⟨rfl, rfl⟩

/-- C6 counterexample: the single-element ratio list [100] with the
equal-length name list ["train"] sums to 100, yet initialize raises (the
gcd helper requires at least two values). -/
theorem C6_counterexample :
    exIsErr (initializeSplitter [100] ["train"]) = true ∧
    ([100] : List Int).length = ["train"].length ∧
    ([100] : List Int).sum = 100 := by
  decide

/-- C6 (amended): for non-None ratio and name lists, initialize raises if
and only if the lists differ in length, the ratios do not sum to 100, or
there are fewer than two ratios (the gcd helper rejects shorter lists). -/
theorem C6_initialize_error_iff (ratios : List Int) (names : List String) :
    exIsErr (initializeSplitter ratios names) = true ↔
      ratios.length ≠ names.length ∨ ratios.sum ≠ 100 ∨ ratios.length < 2 := by
  by_cases h1 : ratios.length = names.length
  · by_cases h2 : ratios.sum = 100
    · rcases ratios with _ | ⟨a, _ | ⟨b, rest⟩⟩ <;>
        simp_all [initializeSplitter, gcdList, exIsErr] <;> omega
    · simp [initializeSplitter, h1, h2, exIsErr]
  · simp [initializeSplitter, h1, exIsErr]

/-- C9: an iterator over no filters (None or the empty list) yields the
input item once and then stops; likewise over a single pass-through filter,
whether a batch filter returning its input or a stream filter emitting
exactly its input. -/
theorem C9_trivial_pipelines (α : Type) (a : α) :
    runPulls 9 3 (mkIterator (some a) (none : Option (List (PFilter α)))) =
      some [.yld (some a), .stop, .stop] ∧
    runPulls 9 3 (mkIterator (some a) (some [])) =
      some [.yld (some a), .stop, .stop] ∧
    runPulls 9 3 (mkIterator (some a) (some [.batch false some])) =
      some [.yld (some a), .stop, .stop] ∧
    runPulls 9 3 (mkIterator (some a) (some [.stream false (fun v => [v]) []])) =
      some [.yld (some a), .stop, .stop] := by
  exact ⟨rfl, rfl, rfl, rfl⟩

/-- C3 counterexample: on the spec's own example the code produces the keys
"", "1", "2" (the numeric key is the current dict size, and the global ""
entry counts towards it), not the claimed "", "0", "1"; in particular the
key "0" is absent. -/
theorem C3_counterexample :
    split_args ["--verbose", "reader-a", "--x", "1", "writer-b", "--y"]
        ["reader-a", "writer-b"] false ≠
      [("", ["--verbose"]), ("0", ["reader-a", "--x", "1"]),
       ("1", ["writer-b", "--y"])] ∧
    (split_args ["--verbose", "reader-a", "--x", "1", "writer-b", "--y"]
        ["reader-a", "writer-b"] false).lookup "0" = none := by
  decide

/-- C5 counterexample: ratios [150, -50] sum to 100 and initialize succeeds
on them with names ["a", "b"]; the gcd is 50, so the claim asks for
sum/gcd = 2 calls returning "a" exactly 150/50 = 3 times, but 2 calls can
only return "a" twice. -/
theorem C5_counterexample :
    exIsOk (initializeSplitter [150, -50] ["a", "b"]) = true ∧
    ([150, -50] : List Int).sum = 100 ∧
    (gcdList [150, -50]).toOption = some 50 ∧
    ((100 : Int) / 50).toNat = 2 ∧
    (runSplitter exSplitSt 2).1.count (some "a") = 2 ∧
    (runSplitter exSplitSt 2).2.counter = 0 ∧
    ((150 : Int) / 50).toNat ≠ 2 := by
  decide

/-- C2 counterexample: in the chain A, B, C the pair (A, B) carries the
wildcard class 0, while the pair (B, C) has disjoint non-wildcard type sets
(no wildcard, no subtype match), so the claim requires an error; but the
wildcard test executes a return from the whole function, so the code
succeeds without ever checking (B, C). -/
theorem C2_counterexample :
    exIsOk (checkCompatibility (fun a b => a == b) 0
      [⟨"A", some [0], none⟩, ⟨"B", some [2], some [1]⟩,
       ⟨"C", none, some [3]⟩]) = true ∧
    hasWildcard 0 [2] [3] = false ∧
    pairMatchB (fun a b => a == b) [2] [3] = false := by
  decide

/-- C8 counterexample: the registry holds name "x" for class "A"; then the
same class "A" registers with names ["x", "y"].  No name is held by a
different class, so the claim requires success, but the uniqueness loop
looks every name up and hits a KeyError on the absent "y". -/
theorem C8_counterexample :
    exIsErr (registerPlugin false true [("x", "A")] ["x", "y"] "A") = true ∧
    (∀ n ∈ (["x", "y"] : List String),
      List.lookup n [("x", "A")] = some "A" ∨
        List.lookup n [("x", "A")] = none) := by
  decide

/-- Helper: the uniqueness loop of _register_plugin raises exactly when
some name is absent from the registry or bound to another class name. -/
theorem scanNames_error_iff (reg : List (String × String)) (cls : String)
    (names : List String) :
    exIsErr (scanNames reg cls names) = true ↔
      ∃ n ∈ names, reg.lookup n ≠ some cls := by
  induction names with
  | nil => simp [scanNames, exIsErr]
  | cons n rest ih =>
    cases h : reg.lookup n with
    | none =>
      constructor
      · intro _; exact ⟨n, List.mem_cons_self n rest, by simp [h]⟩
      · intro _; simp [scanNames, h, exIsErr]
    | some c =>
      by_cases hc : c = cls
      · subst hc
        have hstep : scanNames reg c (n :: rest) = scanNames reg c rest := by
          simp [scanNames, h]
        rw [hstep, ih]
        constructor
        · rintro ⟨m, hm, hne⟩; exact ⟨m, List.mem_cons_of_mem n hm, hne⟩
        · rintro ⟨m, hm, hne⟩
          rcases List.mem_cons.mp hm with rfl | hm'
          · exact absurd h hne
          · exact ⟨m, hm', hne⟩
      · constructor
        · intro _; exact ⟨n, List.mem_cons_self n rest, by simp [h, hc]⟩
        · intro _; simp [scanNames, h, hc, exIsErr]

/-- C8 (amended): with uniqueness enforcement on (and the plugin not
excluded), registering raises if and only if some of the plugin's names is
already present AND some of its names is absent or registered to a
different class; in particular re-registering the identical class under its
exact existing name set succeeds, but a same-class registration whose name
set only partially overlaps the registry raises (a KeyError). -/
theorem C8_register_error_iff (reg : List (String × String))
    (names : List String) (cls : String) :
    exIsErr (registerPlugin false true reg names cls) = true ↔
      (∃ n ∈ names, (reg.lookup n).isSome = true) ∧
      (∃ n ∈ names, reg.lookup n ≠ some cls) := by
  have hscan := scanNames_error_iff reg cls names
  unfold registerPlugin
  rw [if_neg (by simp)]
  by_cases hp : (names.any fun n => (List.lookup n reg).isSome) = true
  · have hcond : (true && names.any fun n => (List.lookup n reg).isSome) = true := by
      rw [hp]; rfl
    rw [if_pos hcond]
    cases hs : scanNames reg cls names with
    | ok u =>
      constructor
      · intro hco; exact absurd hco (by simp [exIsErr])
      · rintro ⟨-, hex⟩
        have hbad : exIsErr (scanNames reg cls names) = true := hscan.mpr hex
        rw [hs] at hbad
        exact absurd hbad (by simp [exIsErr])
    | error e =>
      have hex := hscan.mp (by rw [hs]; rfl)
      have hpres : ∃ n ∈ names, (List.lookup n reg).isSome = true := by
        simpa [List.any_eq_true] using hp
      constructor
      · intro _; exact ⟨hpres, hex⟩
      · intro _; rfl
  · have hfalse : (names.any fun n => (List.lookup n reg).isSome) = false := by
      simpa using hp
    rw [if_neg (by rw [hfalse]; simp)]
    constructor
    · intro hco; exact absurd hco (by simp [exIsErr])
    · rintro ⟨⟨n, hn, hsome⟩, -⟩
      have htrue : (names.any fun n => (List.lookup n reg).isSome) = true :=
        List.any_eq_true.mpr ⟨n, hn, hsome⟩
      rw [hfalse] at htrue
      exact absurd htrue (by simp)

/-- Helper: the pair scan of check_compatibility raises exactly when some
pair fails with every earlier pair passing cleanly (no wildcard), the
wildcard ending the scan successfully. -/
theorem checkGo_error_iff (sub : Nat → Nat → Bool) (matchAll : Nat) :
    ∀ (l : List CPlugin) (i : Nat),
      exIsErr (checkGo sub matchAll i l) = true ↔
        ∃ k, (∃ p1 p2, l[k]? = some p1 ∧ l[k + 1]? = some p2 ∧
                pairFails sub matchAll p1 p2 = true) ∧
          ∀ j, j < k → ∀ q1 q2, l[j]? = some q1 → l[j + 1]? = some q2 →
            pairContinues sub matchAll q1 q2 = true := by
  intro l
  induction l with
  | nil =>
    intro i
    constructor
    · intro habs; exact absurd habs (by simp [checkGo, exIsErr])
    · rintro ⟨k, ⟨p1, p2, hp1, -, -⟩, -⟩
      simp at hp1
  | cons p ltail ih =>
    cases ltail with
    | nil =>
      intro i
      constructor
      · intro habs; exact absurd habs (by simp [checkGo, exIsErr])
      · rintro ⟨k, ⟨p1, p2, -, hp2, -⟩, -⟩
        obtain ⟨hlt, -⟩ := List.getElem?_eq_some_iff.mp hp2
        simp at hlt
    | cons q qtail =>
      intro i
      cases hg : p.generates with
      | none =>
        constructor
        · intro _
          exact ⟨0, ⟨p, q, rfl, by simp, by simp [pairFails, hg]⟩,
            fun j hj => absurd hj (Nat.not_lt_zero j)⟩
        · intro _; simp [checkGo, hg, exIsErr]
      | some cs1 =>
        cases ha : q.accepts with
        | none =>
          constructor
          · intro _
            exact ⟨0, ⟨p, q, rfl, by simp, by simp [pairFails, hg, ha]⟩,
              fun j hj => absurd hj (Nat.not_lt_zero j)⟩
          · intro _; simp [checkGo, hg, ha, exIsErr]
        | some cs2 =>
          by_cases hw : hasWildcard matchAll cs1 cs2 = true
          · have hstep : checkGo sub matchAll i (p :: q :: qtail) = .ok () := by
              simp [checkGo, hg, ha, hw]
            rw [hstep]
            constructor
            · intro habs; exact absurd habs (by simp [exIsErr])
            · rintro ⟨k, ⟨p1, p2, hp1, hp2, hf⟩, hpast⟩
              cases k with
              | zero =>
                obtain rfl : p = p1 := by simpa using hp1
                obtain rfl : q = p2 := by simpa using hp2
                simp [pairFails, hg, ha, hw] at hf
              | succ k0 =>
                have h0 := hpast 0 (Nat.succ_pos k0) p q rfl (by simp)
                simp [pairContinues, hg, ha, hw] at h0
          · by_cases hm : pairMatchB sub cs1 cs2 = true
            · have hstep : checkGo sub matchAll i (p :: q :: qtail) =
                  checkGo sub matchAll (i + 1) (q :: qtail) := by
                simp [checkGo, hg, ha, hw, hm]
              rw [hstep, ih (i + 1)]
              constructor
              · rintro ⟨k, ⟨p1, p2, hp1, hp2, hf⟩, hpast⟩
                refine ⟨k + 1, ⟨p1, p2, by simpa using hp1, by simpa using hp2, hf⟩, ?_⟩
                intro j hj q1 q2 hq1 hq2
                cases j with
                | zero =>
                  obtain rfl : p = q1 := by simpa using hq1
                  obtain rfl : q = q2 := by simpa using hq2
                  simp [pairContinues, hg, ha, hw, hm]
                | succ j0 =>
                  exact hpast j0 (by omega) q1 q2 (by simpa using hq1)
                    (by simpa using hq2)
              · rintro ⟨k, ⟨p1, p2, hp1, hp2, hf⟩, hpast⟩
                cases k with
                | zero =>
                  obtain rfl : p = p1 := by simpa using hp1
                  obtain rfl : q = p2 := by simpa using hp2
                  simp [pairFails, hg, ha, hw, hm] at hf
                | succ k0 =>
                  refine ⟨k0, ⟨p1, p2, by simpa using hp1, by simpa using hp2, hf⟩, ?_⟩
                  intro j hj q1 q2 hq1 hq2
                  exact hpast (j + 1) (by omega) q1 q2 (by simpa using hq1)
                    (by simpa using hq2)
            · have hstep : checkGo sub matchAll i (p :: q :: qtail) =
                  .error (.incompatible i p.name q.name) := by
                simp [checkGo, hg, ha, hw, hm]
              rw [hstep]
              constructor
              · intro _
                exact ⟨0, ⟨p, q, rfl, by simp, by simp [pairFails, hg, ha, hw, hm]⟩,
                  fun j hj => absurd hj (Nat.not_lt_zero j)⟩
              · intro _; rfl

/-- C2 (amended): check_compatibility never raises on empty or one-element
lists, and raises if and only if, scanning adjacent pairs in order, some
pair fails (missing producer/consumer interface, or no wildcard on either
side and no subtype match) while every earlier pair passed its subtype
match without a wildcard; a pair carrying the wildcard type on either side
ends the whole check successfully, skipping all later pairs. -/
theorem C2_check_compatibility_spec (sub : Nat → Nat → Bool) (matchAll : Nat)
    (ps : List CPlugin) :
    (ps.length ≤ 1 → checkCompatibility sub matchAll ps = .ok ()) ∧
    (exIsErr (checkCompatibility sub matchAll ps) = true ↔
      ∃ k, (∃ p1 p2, ps[k]? = some p1 ∧ ps[k + 1]? = some p2 ∧
              pairFails sub matchAll p1 p2 = true) ∧
        ∀ j, j < k → ∀ q1 q2, ps[j]? = some q1 → ps[j + 1]? = some q2 →
          pairContinues sub matchAll q1 q2 = true) := by
  constructor
  · intro hlen
    match ps, hlen with
    | [], _ => rfl
    | [p], _ => rfl
  · exact checkGo_error_iff sub matchAll ps 0

/-- C2 witness: the amended characterization applied to a concrete failing
chain, whose first pair matches on class 1 and whose second pair has
disjoint type sets. -/
theorem C2_witness :
    checkCompatibility (fun a b => a == b) 7 [] = .ok () ∧
    exIsErr (checkCompatibility (fun a b => a == b) 7
      [⟨"A", some [1], none⟩, ⟨"B", some [2], some [1]⟩,
       ⟨"C", none, some [3]⟩]) = true := by
  constructor
  · exact (C2_check_compatibility_spec (fun a b => a == b) 7 []).1 (by decide)
  · refine (C2_check_compatibility_spec (fun a b => a == b) 7
      [⟨"A", some [1], none⟩, ⟨"B", some [2], some [1]⟩,
       ⟨"C", none, some [3]⟩]).2.mpr ?_
    refine ⟨1, ⟨⟨"B", some [2], some [1]⟩, ⟨"C", none, some [3]⟩, rfl, rfl,
      by decide⟩, ?_⟩
    intro j hj q1 q2 hq1 hq2
    have hj0 : j = 0 := by omega
    subst hj0
    obtain rfl : (⟨"A", some [1], none⟩ : CPlugin) = q1 := by simpa using hq1
    obtain rfl : (⟨"B", some [2], some [1]⟩ : CPlugin) = q2 := by simpa using hq2
    decide

/-- C7: exact match wins unconditionally; otherwise with partial matching
enabled the candidate resolves to m exactly when m is the unique known name
having the candidate as a prefix (zero or several prefix matches yield no
match), and with partial matching disabled a non-member never resolves. -/
theorem C7_resolve_handler_spec (handlers : List String) (hnd : handlers.Nodup)
    (search m : String) :
    (∀ b : Bool, search ∈ handlers → resolve_handler search handlers b = some search) ∧
    (search ∉ handlers → resolve_handler search handlers false = none) ∧
    (search ∉ handlers →
      (resolve_handler search handlers true = some m ↔
        m ∈ handlers ∧ strStartsWith search m = true ∧
          ∀ h ∈ handlers, strStartsWith search h = true → h = m)) := by
  refine ⟨fun b hin => by simp [resolve_handler, hin],
    fun hnotin => by simp [resolve_handler, hnotin],
    fun hnotin => ?_⟩
  have hre : resolve_handler search handlers true =
      (match handlers.filter (fun h => strStartsWith search h) with
       | [x] => some x
       | _ => none) := by
    simp [resolve_handler, hnotin]
  rcases hf : handlers.filter (fun h => strStartsWith search h) with _ | ⟨x, _ | ⟨y, ys⟩⟩
  · rw [hre, hf]
    constructor
    · intro habs; exact absurd habs (by simp)
    · rintro ⟨hm, hpre, -⟩
      have hmem : m ∈ handlers.filter (fun h => strStartsWith search h) :=
        List.mem_filter.mpr ⟨hm, hpre⟩
      rw [hf] at hmem
      exact absurd hmem (List.not_mem_nil m)
  · rw [hre, hf]
    have hxf : x ∈ handlers.filter (fun h => strStartsWith search h) := by
      rw [hf]; exact List.mem_cons_self x []
    have hx := List.mem_filter.mp hxf
    constructor
    · intro he
      have hxm : x = m := by injection he
      subst hxm
      refine ⟨hx.1, hx.2, fun h hh hph => ?_⟩
      have hmem : h ∈ handlers.filter (fun t => strStartsWith search t) :=
        List.mem_filter.mpr ⟨hh, hph⟩
      rw [hf] at hmem
      simpa using hmem
    · rintro ⟨hm, hpre, huniq⟩
      rw [huniq x hx.1 hx.2]
  · rw [hre, hf]
    have hnodup : (handlers.filter (fun h => strStartsWith search h)).Nodup :=
      hnd.filter _
    rw [hf] at hnodup
    have hxy : x ≠ y := by
      intro he; subst he
      exact (List.nodup_cons.mp hnodup).1 (List.mem_cons_self x ys)
    have hxf : x ∈ handlers.filter (fun h => strStartsWith search h) := by
      rw [hf]; exact List.mem_cons_self _ _
    have hyf : y ∈ handlers.filter (fun h => strStartsWith search h) := by
      rw [hf]; exact List.mem_cons_of_mem _ (List.mem_cons_self _ _)
    have hx := List.mem_filter.mp hxf
    have hy := List.mem_filter.mp hyf
    constructor
    · intro habs; exact absurd habs (by simp)
    · rintro ⟨hm, hpre, huniq⟩
      exact absurd ((huniq x hx.1 hx.2).trans (huniq y hy.1 hy.2).symm) hxy

/-- C7 witness: on the spec's example set, the prefix read-c resolves to
read-csv, and the exact name resolves to itself with partial matching off. -/
theorem C7_witness :
    resolve_handler "read-csv" ["read-csv", "read-json"] false = some "read-csv" ∧
    resolve_handler "read-c" ["read-csv", "read-json"] true = some "read-csv" := by
  constructor
  · exact (C7_resolve_handler_spec ["read-csv", "read-json"] (by decide)
      "read-csv" "read-csv").1 false (by decide)
  · exact ((C7_resolve_handler_spec ["read-csv", "read-json"] (by decide)
      "read-c" "read-csv").2.2 (by decide)).mpr (by decide)

/-- Helper: a resolved handler is a member of the handler set. -/
theorem resolve_handler_mem (s : String) (hs : List String) (b : Bool) (m : String)
    (hr : resolve_handler s hs b = some m) : m ∈ hs := by
  unfold resolve_handler at hr
  by_cases hin : s ∈ hs
  · rw [if_pos hin] at hr
    cases hr
    exact hin
  · rw [if_neg hin] at hr
    cases b
    · simp at hr
    · simp only [if_pos] at hr
      rcases hf : hs.filter (fun t => strStartsWith s t) with _ | ⟨x, _ | ⟨y, ys⟩⟩ <;>
        rw [hf] at hr
      · exact absurd hr (by simp)
      · have hxm : x = m := by injection hr
        subst hxm
        exact (List.mem_filter.mp (by rw [hf]; exact List.mem_cons_self x [])).1
      · exact absurd hr (by simp)

/-- Helper: a run of unresolved tokens is accumulated into last_args. -/
theorem splitArgsGo_unresolved (hs : List String) (b : Bool) :
    ∀ (pre tail : List String) (res : List (String × List String)) (lh : String)
        (la : List String),
      (∀ t ∈ pre, resolve_handler t hs b = none) →
      splitArgsGo hs b res lh la (pre ++ tail) =
        splitArgsGo hs b res lh (la ++ pre) tail := by
  intro pre
  induction pre with
  | nil => intro tail res lh la _; simp
  | cons t rest ih =>
    intro tail res lh la hall
    have ht : resolve_handler t hs b = none := hall t (List.mem_cons_self t rest)
    have hstep : splitArgsGo hs b res lh la ((t :: rest) ++ tail) =
        splitArgsGo hs b res lh (la ++ [t]) (rest ++ tail) := by
      simp [splitArgsGo, ht]
    rw [hstep, ih tail res lh (la ++ [t]) (fun u hu => hall u (List.mem_cons_of_mem t hu))]
    simp

/-- Helper: a nonempty string has positive length. -/
theorem string_length_pos (s : String) (h : s ≠ "") : 0 < s.length := by
  cases s with
  | mk data =>
    cases data with
    | nil => exact absurd rfl h
    | cons c cs => simp [String.length]

/-- Helper: the digit accumulator of Nat.repr only prepends to its list
argument. -/
theorem toDigitsCore_eq_append (b : Nat) :
    ∀ (fuel n : Nat) (ds : List Char),
      Nat.toDigitsCore b fuel n ds = Nat.toDigitsCore b fuel n [] ++ ds := by
  intro fuel
  induction fuel with
  | zero => intro n ds; simp [Nat.toDigitsCore]
  | succ f ih =>
    intro n ds
    simp only [Nat.toDigitsCore]
    by_cases h : n / b = 0
    · rw [if_pos h, if_pos h]
      rfl
    · rw [if_neg h, if_neg h]
      rw [ih (n / b) (Nat.digitChar (n % b) :: ds), ih (n / b) [Nat.digitChar (n % b)]]
      simp

/-- Helper: the digits of n do not depend on the fuel, once adequate. -/
theorem toDigitsCore_fuel_irrel :
    ∀ (n fuel1 fuel2 : Nat), n < fuel1 → n < fuel2 →
      Nat.toDigitsCore 10 fuel1 n [] = Nat.toDigitsCore 10 fuel2 n [] := by
  intro n
  induction n using Nat.strong_induction_on with
  | _ n ih =>
    intro fuel1 fuel2 h1 h2
    cases fuel1 with
    | zero => omega
    | succ f1 =>
      cases fuel2 with
      | zero => omega
      | succ f2 =>
        simp only [Nat.toDigitsCore]
        by_cases h : n / 10 = 0
        · rw [if_pos h, if_pos h]
        · rw [if_neg h, if_neg h]
          have hlt : n / 10 < n := Nat.div_lt_self (by omega) (by omega)
          rw [toDigitsCore_eq_append 10 f1 (n / 10) [Nat.digitChar (n % 10)],
            toDigitsCore_eq_append 10 f2 (n / 10) [Nat.digitChar (n % 10)],
            ih (n / 10) hlt f1 f2 (by omega) (by omega)]

/-- Helper: structural unfolding of the decimal digits of n. -/
theorem toDigits_eq (n : Nat) :
    Nat.toDigits 10 n = if n / 10 = 0 then [Nat.digitChar (n % 10)]
      else Nat.toDigits 10 (n / 10) ++ [Nat.digitChar (n % 10)] := by
  show Nat.toDigitsCore 10 (n + 1) n [] = _
  simp only [Nat.toDigitsCore]
  by_cases h : n / 10 = 0
  · rw [if_pos h, if_pos h]
  · rw [if_neg h, if_neg h]
    rw [toDigitsCore_eq_append 10 n (n / 10) [Nat.digitChar (n % 10)]]
    have hlt : n / 10 < n := Nat.div_lt_self (by omega) (by omega)
    show Nat.toDigitsCore 10 n (n / 10) [] ++ _ =
      Nat.toDigitsCore 10 (n / 10 + 1) (n / 10) [] ++ _
    rw [toDigitsCore_fuel_irrel (n / 10) n (n / 10 + 1) (by omega) (by omega)]

/-- Helper: digitChar is the decimal digit it encodes, for digits below 10. -/
theorem charVal_digitChar (r : Nat) (h : r < 10) :
    charVal (Nat.digitChar r) = r := by
  unfold charVal
  interval_cases r <;> decide

/-- Helper: the decimal value of the digits of n recovers n. -/
theorem digitsVal_toDigits :
    ∀ (n a : Nat),
      digitsVal a (Nat.toDigits 10 n) = a * 10 ^ (Nat.toDigits 10 n).length + n := by
  intro n
  induction n using Nat.strong_induction_on with
  | _ n ih =>
    intro a
    rw [toDigits_eq n]
    by_cases h : n / 10 = 0
    · rw [if_pos h]
      have hn : n % 10 = n := by omega
      have hcv := charVal_digitChar (n % 10) (by omega)
      rw [hn] at hcv
      simp [digitsVal, hn, hcv]
    · rw [if_neg h]
      have hlt : n / 10 < n := Nat.div_lt_self (by omega) (by omega)
      have hcv := charVal_digitChar (n % 10) (by omega)
      have hstep : digitsVal a (Nat.toDigits 10 (n / 10) ++ [Nat.digitChar (n % 10)]) =
          digitsVal a (Nat.toDigits 10 (n / 10)) * 10 + n % 10 := by
        simp only [digitsVal, List.foldl_append, List.foldl_cons, List.foldl_nil, hcv]
      rw [hstep, ih (n / 10) hlt a]
      have hlen : (Nat.toDigits 10 (n / 10) ++ [Nat.digitChar (n % 10)]).length =
          (Nat.toDigits 10 (n / 10)).length + 1 := by simp
      rw [hlen]
      calc (a * 10 ^ (Nat.toDigits 10 (n / 10)).length + n / 10) * 10 + n % 10
          = a * (10 ^ (Nat.toDigits 10 (n / 10)).length * 10) +
              (10 * (n / 10) + n % 10) := by ring
        _ = a * 10 ^ ((Nat.toDigits 10 (n / 10)).length + 1) + n := by
            rw [pow_succ, Nat.div_add_mod]

/-- Helper: the decimal key strings written by split_args are injective. -/
theorem natRepr_inj (m n : Nat) (h : Nat.repr m = Nat.repr n) : m = n := by
  have hd : Nat.toDigits 10 m = Nat.toDigits 10 n := by
    have h2 := congrArg String.data h
    simpa [Nat.repr, List.asString] using h2
  have hm := digitsVal_toDigits m 0
  have hn := digitsVal_toDigits n 0
  rw [hd] at hm
  simp only [zero_mul, zero_add] at hm hn
  rw [hm] at hn
  exact hn

/-- Helper: no decimal key string is the reserved empty global key. -/
theorem natRepr_ne_empty (n : Nat) : Nat.repr n ≠ "" := by
  intro h
  have hd : Nat.toDigits 10 n = [] := by
    have h2 := congrArg String.data h
    simpa [Nat.repr, List.asString] using h2
  rw [toDigits_eq n] at hd
  by_cases h2 : n / 10 = 0
  · rw [if_pos h2] at hd
    exact absurd hd (by simp)
  · rw [if_neg h2] at hd
    exact absurd hd (by simp)

/-- Helper: looking up a key that is not among the stored keys fails. -/
theorem lookup_eq_none_of_not_mem_keys (res : List (String × List String))
    (k : String) (h : k ∉ res.map Prod.fst) : res.lookup k = none := by
  induction res with
  | nil => rfl
  | cons p rest ih =>
    rcases p with ⟨k1, v1⟩
    simp only [List.map_cons, List.mem_cons] at h
    push_neg at h
    have hne : (k == k1) = false := beq_eq_false_iff_ne.mpr h.1
    simp only [List.lookup, hne]
    exact ih h.2

/-- Helper: assigning a fresh key appends it to the dict. -/
theorem dictInsert_of_fresh (res : List (String × List String)) (k : String)
    (v : List String) (h : k ∉ res.map Prod.fst) :
    dictInsert res k v = res ++ [(k, v)] := by
  unfold dictInsert
  rw [lookup_eq_none_of_not_mem_keys res k h]
  rfl

/-- Helper: assigning a non-empty key leaves a "" head entry in place. -/
theorem dictInsert_head_ne (res : List (String × List String)) (k : String)
    (v : List String) (hk : k ≠ "") (pre : List String)
    (hh : res.head? = some ("", pre)) :
    (dictInsert res k v).head? = some ("", pre) := by
  unfold dictInsert
  by_cases hs : (res.lookup k).isSome = true
  · rw [if_pos hs, List.head?_map, hh]
    simp [Ne.symm hk]
  · rw [if_neg hs, List.head?_append, hh]
    rfl

/-- Helper: assigning a non-empty key keeps a ("", pre) entry a member. -/
theorem dictInsert_mem_ne (res : List (String × List String)) (k : String)
    (v : List String) (hk : k ≠ "") (pre : List String)
    (hm : ("", pre) ∈ res) : ("", pre) ∈ dictInsert res k v := by
  unfold dictInsert
  by_cases hs : (res.lookup k).isSome = true
  · rw [if_pos hs]
    exact List.mem_map.mpr ⟨("", pre), hm, by simp [Ne.symm hk]⟩
  · rw [if_neg hs]
    exact List.mem_append_left _ hm

/-- C10 counterexample: when the empty string is itself a handler name,
the dict assignment result[""] = last_args at the next resolution
overwrites the global entry: handlers ["", "x"] with tokens ["", "x"]
yield the dict with "" mapped to [""], not to the empty list of tokens
preceding the first resolved handler (the first token, ""). -/
theorem C10_counterexample :
    split_args ["", "x"] ["", "x"] false = [("", [""]), ("1", ["x"])] ∧
    (split_args ["", "x"] ["", "x"] false).lookup "" = some [""] ∧
    ("", ([] : List String)) ∉ split_args ["", "x"] ["", "x"] false ∧
    resolve_handler "" (["", "x"] : List String).dedup false = some "" := by
  decide

/-- Helper: once a handler group is open (last_handler nonempty) and the
empty string is not a handler name, the rest of the scan only assigns
non-empty keys, so the "" entry at the head of the dict survives with its
value. -/
theorem splitArgsGo_keeps_head (hs : List String) (b : Bool) (hne : "" ∉ hs) :
    ∀ (args : List String) (res : List (String × List String)) (lh : String)
        (la : List String) (pre : List String),
      lh ≠ "" →
      res.head? = some ("", pre) →
      ("", pre) ∈ res →
      (splitArgsGo hs b res lh la args).head? = some ("", pre) ∧
        ("", pre) ∈ splitArgsGo hs b res lh la args := by
  intro args
  induction args with
  | nil =>
    intro res lh la pre hlh hh hm
    by_cases hla : la = []
    · constructor
      · rw [show splitArgsGo hs b res lh la [] = res by simp [splitArgsGo, hla]]
        exact hh
      · rw [show splitArgsGo hs b res lh la [] = res by simp [splitArgsGo, hla]]
        exact hm
    · have hstep : splitArgsGo hs b res lh la [] =
          dictInsert res (Nat.repr res.length) la := by
        simp [splitArgsGo, hla]
      rw [hstep]
      exact ⟨dictInsert_head_ne res _ la (natRepr_ne_empty res.length) pre hh,
        dictInsert_mem_ne res _ la (natRepr_ne_empty res.length) pre hm⟩
  | cons t rest ih =>
    intro res lh la pre hlh hh hm
    cases hr : resolve_handler t hs b with
    | none =>
      have hstep : splitArgsGo hs b res lh la (t :: rest) =
          splitArgsGo hs b res lh (la ++ [t]) rest := by
        simp [splitArgsGo, hr]
      rw [hstep]
      exact ih res lh (la ++ [t]) pre hlh hh hm
    | some hd =>
      have hdne : hd ≠ "" := fun he => hne (he ▸ resolve_handler_mem t hs b hd hr)
      have hlh2 : lh.length > 0 := string_length_pos lh hlh
      have hstep : splitArgsGo hs b res lh la (t :: rest) =
          splitArgsGo hs b (dictInsert res (Nat.repr res.length) la) hd [hd] rest := by
        simp [splitArgsGo, hr, hlh2]
      rw [hstep]
      exact ih (dictInsert res (Nat.repr res.length) la) hd [hd] pre hdne
        (dictInsert_head_ne res _ la (natRepr_ne_empty res.length) pre hh)
        (dictInsert_mem_ne res _ la (natRepr_ne_empty res.length) pre hm)

/-- C10 (amended): when no token resolves to a handler, the whole
non-empty token list lands under the key "0"; when some token resolves and
the empty string is not itself a handler name, the result starts with the
empty-string global key mapped to the tokens preceding the first resolved
handler.  (Without that guard, a resolved empty-string handler makes
result[""] = last_args overwrite the global entry.) -/
theorem C10_split_args_global_group (args hs pre rest : List String) (h : String)
    (b : Bool) :
    (args ≠ [] → (∀ t ∈ args, resolve_handler t hs.dedup b = none) →
      split_args args hs b = [("0", args)]) ∧
    ("" ∉ hs.dedup →
      (∀ t ∈ pre, resolve_handler t hs.dedup b = none) →
      resolve_handler h hs.dedup b ≠ none →
      (split_args (pre ++ h :: rest) hs b).head? = some ("", pre) ∧
        ("", pre) ∈ split_args (pre ++ h :: rest) hs b) := by
  constructor
  · intro hne hall
    unfold split_args
    have h0 := splitArgsGo_unresolved hs.dedup b args [] [] "" [] hall
    simp only [List.append_nil, List.nil_append] at h0
    rw [h0]
    simp only [splitArgsGo, if_neg hne]
    rfl
  · intro hne hpre hh
    unfold split_args
    have h0 := splitArgsGo_unresolved hs.dedup b pre (h :: rest) [] "" [] hpre
    simp only [List.append_nil, List.nil_append] at h0
    rw [h0]
    cases hr : resolve_handler h hs.dedup b with
    | none => exact absurd hr hh
    | some hd =>
      have hdne : hd ≠ "" := fun he => hne (he ▸ resolve_handler_mem h hs.dedup b hd hr)
      have hstep : splitArgsGo hs.dedup b [] "" pre (h :: rest) =
          splitArgsGo hs.dedup b [("", pre)] hd [hd] rest := by
        simp [splitArgsGo, hr, dictInsert]
      rw [hstep]
      exact splitArgsGo_keeps_head hs.dedup b hne rest [("", pre)] hd [hd] pre hdne
        rfl (List.mem_cons_self _ _)

/-- C10 witness: with handlers {x}, the unresolvable tokens land under "0",
and x with a preceding global option produces the "" group. -/
theorem C10_witness :
    split_args ["--a", "--b"] ["x"] false = [("0", ["--a", "--b"])] ∧
    (split_args (["--a"] ++ "x" :: ["--b"]) ["x"] false).head? =
      some ("", ["--a"]) ∧
    ("", ["--a"]) ∈ split_args (["--a"] ++ "x" :: ["--b"]) ["x"] false := by
  have hmain := C10_split_args_global_group ["--a", "--b"] ["x"] ["--a"] ["--b"] "x" false
  refine ⟨hmain.1 (by decide) (by decide), ?_, ?_⟩
  · exact (hmain.2 (by decide) (by decide) (by decide)).1
  · exact (hmain.2 (by decide) (by decide) (by decide)).2

/-- Helper: once a handler group is open, the keys of the result dictionary
are the empty global key followed by the decimal representations of
1, 2, ..., in order (the numeric key written at each insertion is the
current size of the dictionary, and the "" entry counts towards it). -/
theorem splitArgsGo_numeric_keys (hs : List String) (b : Bool) (hne : "" ∉ hs) :
    ∀ (args : List String) (res : List (String × List String)) (lh : String)
        (la : List String) (k : Nat),
      res.map Prod.fst = "" :: (List.range' 1 k).map Nat.repr →
      res.length = k + 1 →
      lh ≠ "" →
      ∃ k2, (splitArgsGo hs b res lh la args).map Prod.fst =
          "" :: (List.range' 1 k2).map Nat.repr ∧
        (splitArgsGo hs b res lh la args).length = k2 + 1 := by
  intro args
  induction args with
  | nil =>
    intro res lh la k hkeys hlen hlh
    by_cases hla : la = []
    · exact ⟨k, by simp [splitArgsGo, hla, hkeys, hlen]⟩
    · have hfresh : Nat.repr res.length ∉ res.map Prod.fst := by
        rw [hkeys, hlen]
        simp only [List.mem_cons, List.mem_map]
        push_neg
        refine ⟨natRepr_ne_empty (k + 1), ?_⟩
        intro x hx heq
        have hxk := List.mem_range'_1.mp hx
        have := natRepr_inj x (k + 1) heq
        omega
      refine ⟨k + 1, ?_, ?_⟩
      · have hmap : (res ++ [(Nat.repr res.length, la)]).map Prod.fst =
            ("" :: (List.range' 1 k).map Nat.repr) ++ [Nat.repr (k + 1)] := by
          rw [List.map_append, hkeys, hlen]; simp
        rw [show splitArgsGo hs b res lh la [] = res ++ [(Nat.repr res.length, la)] by
          simp only [splitArgsGo, if_neg hla]
          exact dictInsert_of_fresh res _ la hfresh]
        rw [hmap, List.range'_1_concat, List.map_append]
        simp [Nat.add_comm]
      · rw [show splitArgsGo hs b res lh la [] = res ++ [(Nat.repr res.length, la)] by
          simp only [splitArgsGo, if_neg hla]
          exact dictInsert_of_fresh res _ la hfresh]
        simp [hlen]
  | cons t rest ih =>
    intro res lh la k hkeys hlen hlh
    cases hr : resolve_handler t hs b with
    | none =>
      have hstep : splitArgsGo hs b res lh la (t :: rest) =
          splitArgsGo hs b res lh (la ++ [t]) rest := by
        simp [splitArgsGo, hr]
      rw [hstep]
      exact ih res lh (la ++ [t]) k hkeys hlen hlh
    | some hd =>
      have hdne : hd ≠ "" := fun he => hne (he ▸ resolve_handler_mem t hs b hd hr)
      have hlh2 : lh.length > 0 := string_length_pos lh hlh
      have hfresh : Nat.repr res.length ∉ res.map Prod.fst := by
        rw [hkeys, hlen]
        simp only [List.mem_cons, List.mem_map]
        push_neg
        refine ⟨natRepr_ne_empty (k + 1), ?_⟩
        intro x hx heq
        have hxk := List.mem_range'_1.mp hx
        have := natRepr_inj x (k + 1) heq
        omega
      have hstep : splitArgsGo hs b res lh la (t :: rest) =
          splitArgsGo hs b (res ++ [(Nat.repr res.length, la)]) hd [hd] rest := by
        rw [show splitArgsGo hs b res lh la (t :: rest) =
            splitArgsGo hs b (dictInsert res (Nat.repr res.length) la) hd [hd] rest by
          simp [splitArgsGo, hr, hlh2]]
        rw [dictInsert_of_fresh res _ la hfresh]
      rw [hstep]
      apply ih (res ++ [(Nat.repr res.length, la)]) hd [hd] (k + 1) ?_ ?_ hdne
      · rw [List.map_append, hkeys, hlen, List.range'_1_concat, List.map_append]
        simp [Nat.add_comm]
      · simp [hlen]

/-- C3 (amended): the spec's example actually yields the keys "", "1", "2"
(not "", "0", "1"): the numeric key written for each handler group is the
current size of the dictionary, which already contains the "" global entry,
so handler groups are keyed consecutively starting at "1" whenever some
token resolves to a handler. -/
theorem C3_split_args_key_numbering (hs pre rest : List String) (h : String)
    (b : Bool) (hne : "" ∉ hs.dedup)
    (hpre : ∀ t ∈ pre, resolve_handler t hs.dedup b = none)
    (hh : resolve_handler h hs.dedup b ≠ none) :
    split_args ["--verbose", "reader-a", "--x", "1", "writer-b", "--y"]
        ["reader-a", "writer-b"] false =
      [("", ["--verbose"]), ("1", ["reader-a", "--x", "1"]),
       ("2", ["writer-b", "--y"])] ∧
    ∃ k, (split_args (pre ++ h :: rest) hs b).map Prod.fst =
        "" :: (List.range' 1 k).map Nat.repr ∧
      (split_args (pre ++ h :: rest) hs b).length = k + 1 := by
  constructor
  · decide
  · unfold split_args
    have h0 := splitArgsGo_unresolved hs.dedup b pre (h :: rest) [] "" [] hpre
    simp only [List.append_nil, List.nil_append] at h0
    rw [h0]
    cases hr : resolve_handler h hs.dedup b with
    | none => exact absurd hr hh
    | some hd =>
      have hdne : hd ≠ "" := fun he => hne (he ▸ resolve_handler_mem h hs.dedup b hd hr)
      have hstep : splitArgsGo hs.dedup b [] "" pre (h :: rest) =
          splitArgsGo hs.dedup b [("", pre)] hd [hd] rest := by
        simp [splitArgsGo, hr, dictInsert]
      rw [hstep]
      exact splitArgsGo_numeric_keys hs.dedup b hne rest [("", pre)] hd [hd] 0
        (by simp) (by simp) hdne

/-- C3 witness: the amended key-numbering fact instantiated on the example
pipeline, giving keys "", "1", "2". -/
theorem C3_witness :
    split_args ["--verbose", "reader-a", "--x", "1", "writer-b", "--y"]
        ["reader-a", "writer-b"] false =
      [("", ["--verbose"]), ("1", ["reader-a", "--x", "1"]),
       ("2", ["writer-b", "--y"])] ∧
    ∃ k, (split_args (["--verbose"] ++ "reader-a" ::
          ["--x", "1", "writer-b", "--y"]) ["reader-a", "writer-b"] false).map
        Prod.fst = "" :: (List.range' 1 k).map Nat.repr ∧
      (split_args (["--verbose"] ++ "reader-a" :: ["--x", "1", "writer-b", "--y"])
          ["reader-a", "writer-b"] false).length = k + 1 := by
  exact C3_split_args_key_numbering ["reader-a", "writer-b"] ["--verbose"]
    ["--x", "1", "writer-b", "--y"] "reader-a" false (by decide) (by decide)
    (by decide)

/-- Helper: the gcd fold divides every element of the folded list. -/
theorem gcdFold_dvd (rest : List Int) :
    ∀ (v x : Int), x ∈ v :: rest →
      (rest.foldl (fun acc b => (Int.gcd acc b : Int)) v) ∣ x := by
  induction rest with
  | nil =>
    intro v x hx
    rcases List.mem_cons.mp hx with rfl | habs
    · exact dvd_refl x
    · exact absurd habs (List.not_mem_nil x)
  | cons b rest ih =>
    intro v x hx
    have hfold : (b :: rest).foldl (fun acc t => (Int.gcd acc t : Int)) v =
        rest.foldl (fun acc t => (Int.gcd acc t : Int)) (Int.gcd v b : Int) := rfl
    rw [hfold]
    rcases List.mem_cons.mp hx with rfl | hx2
    · exact dvd_trans (ih (Int.gcd x b : Int) (Int.gcd x b : Int)
        (List.mem_cons_self _ _)) Int.gcd_dvd_left
    · rcases List.mem_cons.mp hx2 with rfl | hx3
      · exact dvd_trans (ih (Int.gcd v x : Int) (Int.gcd v x : Int)
          (List.mem_cons_self _ _)) Int.gcd_dvd_right
      · exact ih (Int.gcd v b : Int) x (List.mem_cons_of_mem _ hx3)

/-- Helper: a successful gcd divides every ratio. -/
theorem gcdList_dvd (rs : List Int) (g : Int) (hg : gcdList rs = .ok g) :
    ∀ x ∈ rs, g ∣ x := by
  rcases rs with _ | ⟨v, _ | ⟨b, rest⟩⟩
  · exact absurd hg (by simp [gcdList])
  · exact absurd hg (by simp [gcdList])
  · have hgv : g = (b :: rest).foldl (fun acc x => (Int.gcd acc x : Int)) v := by
      have h2 := hg
      simp only [gcdList, Except.ok.injEq] at h2
      exact h2.symm
    intro x hx
    rw [hgv]
    exact gcdFold_dvd (b :: rest) v x hx

/-- Helper: the gcd fold over a nonempty tail is nonnegative. -/
theorem gcdFold_nonneg (rest : List Int) :
    ∀ (v : Int), rest ≠ [] →
      0 ≤ rest.foldl (fun acc b => (Int.gcd acc b : Int)) v := by
  induction rest with
  | nil => intro v habs; exact absurd rfl habs
  | cons b rest ih =>
    intro v _
    rcases eq_or_ne rest [] with rfl | hne
    · exact Int.natCast_nonneg _
    · exact ih (Int.gcd v b : Int) hne

/-- Helper: when the ratios sum to 100, the gcd is positive. -/
theorem gcdList_pos (rs : List Int) (g : Int) (hg : gcdList rs = .ok g)
    (hsum : rs.sum = 100) : 0 < g := by
  have hdvd : g ∣ (100 : Int) := by
    have h2 := List.dvd_sum (gcdList_dvd rs g hg)
    rwa [hsum] at h2
  have hnn : 0 ≤ g := by
    rcases rs with _ | ⟨v, _ | ⟨b, rest⟩⟩
    · exact absurd hg (by simp [gcdList])
    · exact absurd hg (by simp [gcdList])
    · have hgv : g = (b :: rest).foldl (fun acc x => (Int.gcd acc x : Int)) v := by
        have h2 := hg
        simp only [gcdList, Except.ok.injEq] at h2
        exact h2.symm
      rw [hgv]
      exact gcdFold_nonneg (b :: rest) v (by simp)
  have hne : g ≠ 0 := by
    rintro rfl
    rw [zero_dvd_iff] at hdvd
    exact absurd hdvd (by norm_num)
  omega

/-- Helper: the schedule entry at k is the prefix sum of the first k
reduced ratios, shifted by the accumulator. -/
theorem buildSchedule_getD (g : Int) :
    ∀ (rs : List Int) (acc : Int) (k : Nat), k ≤ rs.length →
      (buildSchedule g rs acc).getD k 0 =
        acc + ((rs.take k).map (fun r => r / g)).sum := by
  intro rs
  induction rs with
  | nil =>
    intro acc k hk
    have hk0 : k = 0 := by simpa using hk
    subst hk0
    simp [buildSchedule]
  | cons r rest ih =>
    intro acc k hk
    cases k with
    | zero => simp [buildSchedule]
    | succ k0 =>
      have hstep : (buildSchedule g (r :: rest) acc).getD (k0 + 1) 0 =
          (buildSchedule g rest (acc + r / g)).getD k0 0 := by
        simp [buildSchedule]
      rw [hstep, ih (acc + r / g) k0 (by simpa using hk), List.take_succ_cons]
      simp [add_assoc]

/-- Helper: the last schedule entry is the accumulator plus the sum of all
reduced ratios. -/
theorem buildSchedule_getLastD (g : Int) :
    ∀ (rs : List Int) (acc d : Int),
      (buildSchedule g rs acc).getLastD d =
        acc + (rs.map (fun r => r / g)).sum := by
  intro rs
  induction rs with
  | nil => intro acc d; simp [buildSchedule]
  | cons r rest ih =>
    intro acc d
    have hstep : (buildSchedule g (r :: rest) acc).getLastD d =
        (buildSchedule g rest (acc + r / g)).getLastD acc :=
      List.getLastD_cons d acc _
    rw [hstep, ih (acc + r / g) acc]
    simp [add_assoc]

/-- Helper: the length of the schedule. -/
theorem buildSchedule_length (g : Int) :
    ∀ (rs : List Int) (acc : Int),
      (buildSchedule g rs acc).length = rs.length + 1 := by
  intro rs
  induction rs with
  | nil => intro acc; simp [buildSchedule]
  | cons r rest ih => intro acc; simp [buildSchedule, ih]

/-- Helper: exact division distributes over the sum of divisible terms. -/
theorem sum_map_div_of_dvd (g : Int) :
    ∀ (rs : List Int), (∀ x ∈ rs, g ∣ x) →
      (rs.map (fun r => r / g)).sum = rs.sum / g := by
  intro rs
  induction rs with
  | nil => simp
  | cons r rest ih =>
    intro hdvd
    have hr : g ∣ r := hdvd r (List.mem_cons_self _ _)
    have hrest := ih (fun x hx => hdvd x (List.mem_cons_of_mem _ hx))
    simp only [List.map_cons, List.sum_cons, hrest]
    rw [Int.add_ediv_of_dvd_left hr]

/-- Helper: prefix sums of the reduced ratios are monotone when all ratios
are nonnegative. -/
theorem takeSum_mono (rs : List Int) (g : Int) (hpos : ∀ r ∈ rs, 0 ≤ r)
    (hg : 0 < g) :
    ∀ (k1 k2 : Nat), k1 ≤ k2 →
      ((rs.take k1).map (fun r => r / g)).sum ≤
        ((rs.take k2).map (fun r => r / g)).sum := by
  intro k1 k2 hle
  induction k2, hle using Nat.le_induction with
  | base => exact le_refl _
  | succ m hm ihm =>
    have hstep : ((rs.take (m + 1)).map (fun r => r / g)).sum =
        ((rs.take m).map (fun r => r / g)).sum +
          ((rs[m]?.toList).map (fun r => r / g)).sum := by
      rw [List.take_succ, List.map_append, List.sum_append]
    have hpos2 : 0 ≤ ((rs[m]?.toList).map (fun r => r / g)).sum := by
      cases hgm : rs[m]? with
      | none => simp
      | some r =>
        have hrm : r ∈ rs := by
          obtain ⟨hlt, rfl⟩ := List.getElem?_eq_some_iff.mp hgm
          exact List.getElem_mem hlt
        simpa using Int.ediv_nonneg (hpos r hrm) (le_of_lt hg)
    omega

/-- Helper: if the result of the selection fold is not the accumulator,
some index in range satisfies the interval condition and names it. -/
theorem selectFold_mem (names : List String) (schedule : List Int) (c : Int) :
    ∀ (n : Nat) (acc r : Option String),
      (List.range n).foldl
        (fun a j =>
          if schedule.getD j 0 ≤ c ∧ c < schedule.getD (j + 1) 0 then
            some (names.getD j "")
          else a) acc = r →
      r = acc ∨ ∃ j, j < n ∧ (schedule.getD j 0 ≤ c ∧ c < schedule.getD (j + 1) 0) ∧
        r = some (names.getD j "") := by
  intro n
  induction n with
  | zero =>
    intro acc r hfold
    left
    simpa using hfold.symm
  | succ m ih =>
    intro acc r hfold
    rw [List.range_succ, List.foldl_append] at hfold
    simp only [List.foldl_cons, List.foldl_nil] at hfold
    by_cases hp : schedule.getD m 0 ≤ c ∧ c < schedule.getD (m + 1) 0
    · rw [if_pos hp] at hfold
      exact Or.inr ⟨m, by omega, hp, hfold.symm⟩
    · rw [if_neg hp] at hfold
      rcases ih acc r hfold with h1 | ⟨j, hj, hPj, hr⟩
      · exact Or.inl h1
      · exact Or.inr ⟨j, by omega, hPj, hr⟩

/-- Helper: when exactly one index in range satisfies the interval
condition, the selection fold returns its name. -/
theorem selectFold_unique (names : List String) (schedule : List Int) (c : Int) :
    ∀ (n : Nat) (acc : Option String) (i : Nat), i < n →
      schedule.getD i 0 ≤ c → c < schedule.getD (i + 1) 0 →
      (∀ j, j < n → schedule.getD j 0 ≤ c → c < schedule.getD (j + 1) 0 → j = i) →
      (List.range n).foldl
        (fun a j =>
          if schedule.getD j 0 ≤ c ∧ c < schedule.getD (j + 1) 0 then
            some (names.getD j "")
          else a) acc = some (names.getD i "") := by
  intro n
  induction n with
  | zero => intro acc i hi; omega
  | succ m ih =>
    intro acc i hi h1 h2 huniq
    rw [List.range_succ, List.foldl_append]
    simp only [List.foldl_cons, List.foldl_nil]
    by_cases him : i = m
    · subst him
      rw [if_pos ⟨h1, h2⟩]
    · have hPm : ¬(schedule.getD m 0 ≤ c ∧ c < schedule.getD (m + 1) 0) := by
        rintro ⟨ha, hb⟩
        exact him (huniq m (by omega) ha hb).symm
      rw [if_neg hPm]
      exact ih acc i (by omega) h1 h2 (fun j hj ha hb => huniq j (by omega) ha hb)

/-- Helper: with distinct names and a monotone schedule, next selects the
name of split i exactly when the counter lies in the i-th interval. -/
theorem selectSplit_eq_iff (names : List String) (schedule : List Int) (c : Int)
    (hnd : names.Nodup)
    (hmono : ∀ j1 j2, j1 ≤ j2 → j2 ≤ names.length →
      schedule.getD j1 0 ≤ schedule.getD j2 0)
    (i : Nat) (hi : i < names.length) :
    selectSplit names schedule c = some (names.getD i "") ↔
      schedule.getD i 0 ≤ c ∧ c < schedule.getD (i + 1) 0 := by
  constructor
  · intro hsel
    rcases selectFold_mem names schedule c names.length none
        (some (names.getD i "")) hsel with h1 | ⟨j, hj, hPj, hr⟩
    · exact absurd h1 (by simp)
    · have hji : j = i := by
        have hEq : names.getD j "" = names.getD i "" := by
          have := hr
          simpa using this.symm
        rw [List.getD_eq_getElem names "" hj, List.getD_eq_getElem names "" hi] at hEq
        exact (List.Nodup.getElem_inj_iff hnd).mp hEq
      subst hji
      exact hPj
  · rintro ⟨h1, h2⟩
    apply selectFold_unique names schedule c names.length none i hi h1 h2
    intro j hj ha hb
    by_contra hne
    rcases Nat.lt_or_ge j i with hlt | hge
    · have hmo : schedule.getD (j + 1) 0 ≤ schedule.getD i 0 :=
        hmono (j + 1) i (by omega) (by omega)
      omega
    · have hgt : i < j := by omega
      have hmo : schedule.getD (i + 1) 0 ≤ schedule.getD j 0 :=
        hmono (i + 1) j (by omega) (by omega)
      omega

/-- Helper: peeling the first counter off a selection window. -/
theorem map_select_shift (nm : List String) (sch : List Int) :
    ∀ (n : Nat) (a : Int),
      (List.range (n + 1)).map (fun k : Nat => selectSplit nm sch (a + (k : Int))) =
        selectSplit nm sch a ::
          (List.range n).map (fun k : Nat => selectSplit nm sch (a + 1 + (k : Int))) := by
  intro n a
  rw [List.range_succ_eq_map, List.map_cons, List.map_map]
  refine List.cons_eq_cons.mpr ⟨by norm_num, ?_⟩
  apply List.map_congr_left
  intro k hk
  simp only [Function.comp]
  congr 1
  push_cast
  ring

/-- Helper: running the splitter from counter T - m for m steps emits the
selections at counters T - m, ..., T - 1 and ends with the counter back at
0 (for m positive), preserving names and schedule. -/
theorem runSplitter_cycle (nm : List String) (sch : List Int) (T : Int)
    (hT : sch.getLastD 0 = T) :
    ∀ (m : Nat) (st : SplitterState), st.names = nm → st.schedule = sch →
      (m : Int) ≤ T → st.counter = T - (m : Int) →
      (runSplitter st m).1 =
        (List.range m).map
          (fun k : Nat => selectSplit nm sch (T - (m : Int) + (k : Int))) ∧
      (runSplitter st m).2.counter = (if m = 0 then st.counter else 0) ∧
      (runSplitter st m).2.names = nm ∧
      (runSplitter st m).2.schedule = sch := by
  intro m
  induction m with
  | zero =>
    intro st hnm hsch hle hc
    refine ⟨by simp [runSplitter], by simp [runSplitter], by simp [runSplitter, hnm],
      by simp [runSplitter, hsch]⟩
  | succ m0 ihm =>
    intro st hnm hsch hle hc
    have hsp : splitterNext st =
        (selectSplit nm sch st.counter,
         { st with counter := if st.counter + 1 = T then 0 else st.counter + 1 }) := by
      simp only [splitterNext, hnm, hsch, hT]
    have hrun : runSplitter st (m0 + 1) =
        ((splitterNext st).1 :: (runSplitter (splitterNext st).2 m0).1,
         (runSplitter (splitterNext st).2 m0).2) := rfl
    rw [hrun, hsp]
    cases m0 with
    | zero =>
      have hcnt : st.counter + 1 = T := by
        rw [hc]; push_cast; ring
      refine ⟨?_, ?_, by simp [runSplitter, hnm], by simp [runSplitter, hsch]⟩
      · rw [map_select_shift nm sch 0 (T - ((0 + 1 : Nat) : Int))]
        simp only [runSplitter, List.range_zero, List.map_nil]
        rw [hc]
      · simp [runSplitter, hcnt]
    | succ m1 =>
      have hcnt : ¬(st.counter + 1 = T) := by
        rw [hc]; push_cast; omega
      have hc2 : ({ st with counter :=
            if st.counter + 1 = T then 0 else st.counter + 1 } :
          SplitterState).counter = T - ((m1 + 1 : Nat) : Int) := by
        have hproj : ({ st with counter :=
              if st.counter + 1 = T then 0 else st.counter + 1 } :
            SplitterState).counter =
            if st.counter + 1 = T then 0 else st.counter + 1 := rfl
        rw [hproj, if_neg hcnt, hc]
        push_cast; ring
      obtain ⟨hout, hctr, hnm2, hsch2⟩ := ihm
        { st with counter := if st.counter + 1 = T then 0 else st.counter + 1 }
        hnm hsch (by push_cast at hle ⊢; omega) hc2
      refine ⟨?_, ?_, hnm2, hsch2⟩
      · rw [hout, map_select_shift nm sch (m1 + 1) (T - ((m1 + 1 + 1 : Nat) : Int))]
        refine List.cons_eq_cons.mpr ⟨?_, ?_⟩
        · rw [hc]
        · apply List.map_congr_left
          intro k hk
          congr 1
          push_cast
          ring
      · rw [hctr]
        simp


/-- Helper: the number of naturals below N falling in the integer interval
[a, b) is b - a, clamped to the range. -/
theorem countP_range_interval :
    ∀ (N : Nat) (a b : Int), 0 ≤ a → a ≤ b →
      ((List.range N).countP fun k : Nat => decide (a ≤ (k : Int) ∧ (k : Int) < b)) =
        (min b (N : Int) - min a (N : Int)).toNat := by
  intro N a b h0 hab
  induction N with
  | zero =>
    simp only [List.range_zero, List.countP_nil, Nat.cast_zero]
    omega
  | succ M ih =>
    rw [List.range_succ, List.countP_append, ih]
    simp only [List.countP_cons, List.countP_nil, decide_eq_true_eq]
    by_cases hP : a ≤ (M : Int) ∧ (M : Int) < b
    · rw [if_pos hP]
      push_cast
      omega
    · rw [if_neg hP]
      push_cast
      omega

/-- C5 (amended): for nonnegative integer ratios summing to 100 and an
equal-length list of distinct names on which initialize succeeds, calling
next sum(ratios)/gcd(ratios) times in sequence returns names[i] exactly
ratios[i]/gcd times for every i, and the counter is 0 again after the last
call.  (The original claim, quantified over all integer ratio lists, fails
for negative ratios, and with duplicate names the per-name counts merge.) -/
theorem C5_splitter_proportions (rs : List Int) (names : List String)
    (st : SplitterState) (g : Int)
    (hpos : ∀ r ∈ rs, 0 ≤ r) (hnd : names.Nodup)
    (hg : gcdList rs = .ok g)
    (hinit : initializeSplitter rs names = .ok st)
    (i : Nat) (hi : i < names.length) :
    (runSplitter st (rs.sum / g).toNat).1.count (some (names.getD i "")) =
      ((rs.getD i 0) / g).toNat ∧
    (runSplitter st (rs.sum / g).toNat).2.counter = 0 := by
  have hlen : rs.length = names.length := by
    by_contra hne
    simp [initializeSplitter, hne] at hinit
  have hsum : rs.sum = 100 := by
    by_contra hne
    simp [initializeSplitter, hlen, hne] at hinit
  have hstate : st = ⟨rs, names, buildSchedule g rs 0, 0⟩ := by
    have h2 := hinit
    simp [initializeSplitter, hlen, hsum, hg] at h2
    exact h2.symm
  have hg0 : 0 < g := gcdList_pos rs g hg hsum
  have hdvd := gcdList_dvd rs g hg
  set sch := buildSchedule g rs 0 with hsch_def
  set T : Int := rs.sum / g with hT_def
  have hT : sch.getLastD 0 = T := by
    rw [hsch_def, buildSchedule_getLastD g rs 0 0, sum_map_div_of_dvd g rs hdvd,
      zero_add]
  have hTpos : 0 < T := by
    have hdvd100 : g ∣ (100 : Int) := by
      have h2 := List.dvd_sum hdvd
      rwa [hsum] at h2
    have hmul : g * (100 / g) = 100 := Int.mul_ediv_cancel' hdvd100
    rw [hT_def, hsum]
    by_contra hle
    push_neg at hle
    nlinarith
  have hmT : ((T.toNat : Nat) : Int) = T := Int.toNat_of_nonneg (le_of_lt hTpos)
  have hgetD : ∀ k : Nat, k ≤ rs.length →
      sch.getD k 0 = ((rs.take k).map (fun r => r / g)).sum := by
    intro k hk
    rw [hsch_def, buildSchedule_getD g rs 0 k hk, zero_add]
  have hmono : ∀ j1 j2, j1 ≤ j2 → j2 ≤ names.length →
      sch.getD j1 0 ≤ sch.getD j2 0 := by
    intro j1 j2 h12 hj2
    rw [hgetD j1 (by omega), hgetD j2 (by omega)]
    exact takeSum_mono rs g hpos hg0 j1 j2 h12
  obtain ⟨hout, hctr, -, -⟩ := runSplitter_cycle names sch T hT T.toNat st
    (by rw [hstate]) (by rw [hstate]) (by rw [hmT])
    (by rw [hstate, hmT]; show (0 : Int) = T - T; ring)
  have hTnz : T.toNat ≠ 0 := by omega
  constructor
  · rw [hout]
    have houts2 : (List.range T.toNat).map
        (fun k : Nat => selectSplit names sch (T - ((T.toNat : Nat) : Int) + (k : Int))) =
          (List.range T.toNat).map (fun k : Nat => selectSplit names sch (k : Int)) := by
      apply List.map_congr_left
      intro k hk
      congr 1
      rw [hmT]
      ring
    rw [houts2, List.count_eq_countP, List.countP_map]
    have hcongr : List.countP
        ((fun x => x == some (names.getD i "")) ∘ fun k : Nat => selectSplit names sch (k : Int))
        (List.range T.toNat) =
        List.countP
          (fun k : Nat => decide (sch.getD i 0 ≤ (k : Int) ∧ (k : Int) < sch.getD (i + 1) 0))
          (List.range T.toNat) := by
      apply List.countP_congr
      intro k hk
      have hiff := selectSplit_eq_iff names sch (k : Int) hnd hmono i hi
      constructor
      · intro hp
        have heq : selectSplit names sch (k : Int) = some (names.getD i "") :=
          beq_iff_eq.mp hp
        exact decide_eq_true (hiff.mp heq)
      · intro hq
        have hP := of_decide_eq_true hq
        have heq := hiff.mpr hP
        show (selectSplit names sch (k : Int) == some (names.getD i "")) = true
        exact beq_iff_eq.mpr heq
    rw [hcongr, countP_range_interval T.toNat (sch.getD i 0) (sch.getD (i + 1) 0)]
    · have hA : sch.getD i 0 = ((rs.take i).map (fun r => r / g)).sum :=
        hgetD i (by omega)
      have hB : sch.getD (i + 1) 0 = ((rs.take (i + 1)).map (fun r => r / g)).sum :=
        hgetD (i + 1) (by omega)
      have h0A : 0 ≤ sch.getD i 0 := by
        have h2 := takeSum_mono rs g hpos hg0 0 i (Nat.zero_le i)
        rw [List.take_zero, List.map_nil, List.sum_nil] at h2
        rw [hA]
        exact h2
      have hBT : sch.getD (i + 1) 0 ≤ T := by
        have hTsum : T = ((rs.take rs.length).map (fun r => r / g)).sum := by
          rw [List.take_length, sum_map_div_of_dvd g rs hdvd]
        rw [hB, hTsum]
        exact takeSum_mono rs g hpos hg0 (i + 1) rs.length (by omega)
      have hAB : sch.getD i 0 ≤ sch.getD (i + 1) 0 :=
        hmono i (i + 1) (by omega) (by omega)
      have hq : sch.getD (i + 1) 0 - sch.getD i 0 = (rs.getD i 0) / g := by
        have hilt : i < rs.length := by omega
        have hrs : rs[i]? = some (rs.getD i 0) := by
          rw [List.getD_eq_getElem rs 0 hilt]
          exact List.getElem?_eq_getElem hilt
        rw [hA, hB, List.take_succ, hrs, List.map_append, List.sum_append]
        simp
      omega
    · have h2 := takeSum_mono rs g hpos hg0 0 i (Nat.zero_le i)
      rw [List.take_zero, List.map_nil, List.sum_nil] at h2
      have hA : sch.getD i 0 = ((rs.take i).map (fun r => r / g)).sum :=
        hgetD i (by omega)
      rw [hA]
      exact h2
    · exact hmono i (i + 1) (by omega) (by omega)
  · rw [hctr, if_neg hTnz]

/-- C5 witness: ratios [70, 30] with names ["tr", "te"]: ten calls return
"tr" exactly seven times and leave the counter at 0. -/
theorem C5_witness :
    (runSplitter exSplitSt70 10).1.count (some "tr") = 7 ∧
    (runSplitter exSplitSt70 10).2.counter = 0 := by
  have h := C5_splitter_proportions [70, 30] ["tr", "te"] exSplitSt70 10
    (by decide) (by decide) rfl rfl 0 (by decide)
  exact h

/-- Helper: in a strictly sorted list every element is at most the last. -/
theorem sorted_le_getLast :
    ∀ (l : List Nat), l.Sorted (· < ·) →
      ∀ x ∈ l, ∀ y, l.getLast? = some y → x ≤ y := by
  intro l
  induction l with
  | nil => intro _ x hx; exact absurd hx (List.not_mem_nil x)
  | cons a t ih =>
    intro hs x hx y hy
    cases t with
    | nil =>
      have hya : y = a := by simpa using hy.symm
      have hxa : x = a := by simpa using hx
      omega
    | cons b t2 =>
      rw [List.getLast?_cons_cons] at hy
      rcases List.mem_cons.mp hx with rfl | hx2
      · obtain ⟨ys, hys⟩ := List.getLast?_eq_some_iff.mp hy
        have hymem : y ∈ b :: t2 := by rw [hys]; simp
        have hlt := (List.sorted_cons.mp hs).1 y hymem
        omega
      · exact ih (List.sorted_cons.mp hs).2 x hx2 y hy

/-- Helper: every element before the last of a strictly sorted list is
strictly below the last. -/
theorem sorted_dropLast_lt_getLast :
    ∀ (l : List Nat), l.Sorted (· < ·) →
      ∀ x ∈ l.dropLast, ∀ y, l.getLast? = some y → x < y := by
  intro l hs x hx y hy
  obtain ⟨ys, hys⟩ := List.getLast?_eq_some_iff.mp hy
  rw [hys] at hs hx
  rw [List.dropLast_concat] at hx
  exact (List.pairwise_append.mp hs).2.2 x hx y (List.mem_cons_self y [])

/-- Helper: appending a strictly larger element keeps a list sorted. -/
theorem sorted_append_lt (l : List Nat) (i : Nat) (hs : l.Sorted (· < ·))
    (hlt : ∀ x ∈ l, x < i) : (l ++ [i]).Sorted (· < ·) := by
  apply List.pairwise_append.mpr
  refine ⟨hs, by simp, ?_⟩
  intro a ha b hb
  have hbi : b = i := by simpa using hb
  rw [hbi]
  exact hlt a ha

/-- Helper: one pass of the filter loop keeps the pending list strictly
sorted in chain order and within bounds, and preserves the filter count. -/
theorem runFilters_inv {α : Type} :
    ∀ (fuel : Nat) (fs : List (PFilter α)) (pending : List Nat) (output : Option α)
        (i : Nat),
      pending.Sorted (· < ·) →
      (∀ j ∈ pending, j < fs.length) →
      (∀ j ∈ pending, j ≤ i) →
      (output ≠ none → ∀ j ∈ pending, j < i) →
      (passPending (runFilters fuel fs pending output i)).Sorted (· < ·) ∧
      (∀ j ∈ passPending (runFilters fuel fs pending output i),
        j < (passFilters (runFilters fuel fs pending output i)).length) ∧
      (passFilters (runFilters fuel fs pending output i)).length = fs.length := by
  intro fuel
  induction fuel with
  | zero =>
    intro fs pending output i h1 h2 h3 h4
    simp only [runFilters, passPending, passFilters]
    exact ⟨h1, h2, by trivial⟩
  | succ f ih =>
    intro fs pending output i h1 h2 h3 h4
    cases hfi : fs[i]? with
    | none =>
      simp only [runFilters, hfi, passPending, passFilters]
      exact ⟨h1, h2, by trivial⟩
    | some curr =>
      have hilt : i < fs.length := by
        obtain ⟨hl, -⟩ := List.getElem?_eq_some_iff.mp hfi
        exact hl
      cases output with
      | none =>
        cases curr with
        | batch sk g2 =>
          simp only [runFilters, hfi, passPending, passFilters]
          exact ⟨h1, h2, by trivial⟩
        | stream sk f2 buf =>
          cases buf with
          | nil =>
            simp only [runFilters, hfi, passPending, passFilters]
            exact ⟨h1, h2, by trivial⟩
          | cons x xs =>
            have hp1sorted : (if pending = [] then pending else pending.dropLast).Sorted
                (· < ·) := by
              by_cases hp : pending = []
              · rw [if_pos hp]; exact h1
              · rw [if_neg hp]
                exact List.Pairwise.sublist (List.dropLast_sublist pending) h1
            have hp1lt : ∀ j ∈ (if pending = [] then pending else pending.dropLast),
                j < i := by
              by_cases hp : pending = []
              · rw [if_pos hp, hp]; intro j hj; exact absurd hj (List.not_mem_nil j)
              · rw [if_neg hp]
                intro j hj
                have hy : ∃ y, pending.getLast? = some y := by
                  cases hl : pending.getLast? with
                  | none => exact absurd (List.getLast?_eq_none_iff.mp hl) hp
                  | some y => exact ⟨y, rfl⟩
                obtain ⟨y, hy⟩ := hy
                have hjy := sorted_dropLast_lt_getLast pending h1 j hj y hy
                have hymem : y ∈ pending := by
                  obtain ⟨ys, hys⟩ := List.getLast?_eq_some_iff.mp hy
                  rw [hys]; simp
                have hyi := h3 y hymem
                omega
            have hp1mem : ∀ j ∈ (if pending = [] then pending else pending.dropLast),
                j ∈ pending := by
              by_cases hp : pending = []
              · rw [if_pos hp]; intro j hj; exact hj
              · rw [if_neg hp]
                intro j hj
                exact (List.dropLast_sublist pending).mem hj
            have hp2sorted : ((if xs.isEmpty then
                (if pending = [] then pending else pending.dropLast)
                else (if pending = [] then pending else pending.dropLast) ++ [i])).Sorted
                (· < ·) := by
              by_cases hx : xs.isEmpty
              · rw [if_pos hx]; exact hp1sorted
              · rw [if_neg hx]
                exact sorted_append_lt _ i hp1sorted hp1lt
            have hp2le : ∀ j ∈ (if xs.isEmpty then
                (if pending = [] then pending else pending.dropLast)
                else (if pending = [] then pending else pending.dropLast) ++ [i]),
                j ≤ i := by
              by_cases hx : xs.isEmpty
              · rw [if_pos hx]; intro j hj; exact le_of_lt (hp1lt j hj)
              · rw [if_neg hx]
                intro j hj
                rcases List.mem_append.mp hj with hj1 | hj2
                · exact le_of_lt (hp1lt j hj1)
                · have : j = i := by simpa using hj2
                  omega
            have hp2bound : ∀ j ∈ (if xs.isEmpty then
                (if pending = [] then pending else pending.dropLast)
                else (if pending = [] then pending else pending.dropLast) ++ [i]),
                j < (fs.set i (.stream sk f2 xs)).length := by
              rw [List.length_set]
              by_cases hx : xs.isEmpty
              · rw [if_pos hx]; intro j hj; exact h2 j (hp1mem j hj)
              · rw [if_neg hx]
                intro j hj
                rcases List.mem_append.mp hj with hj1 | hj2
                · exact h2 j (hp1mem j hj1)
                · have : j = i := by simpa using hj2
                  omega
            by_cases hlast : i = fs.length - 1
            · simp only [runFilters, hfi, if_pos hlast, passPending, passFilters]
              exact ⟨hp2sorted, hp2bound, List.length_set fs i _⟩
            · simp only [runFilters, hfi, if_neg hlast]
              have hrec := ih (fs.set i (.stream sk f2 xs)) _ (some x) (i + 1)
                hp2sorted hp2bound (fun j hj => by have := hp2le j hj; omega)
                (fun _ j hj => by have := hp2le j hj; omega)
              refine ⟨hrec.1, hrec.2.1, ?_⟩
              rw [hrec.2.2, List.length_set]
      | some v =>
        cases curr with
        | batch sk g2 =>
          cases hout : (if sk then some v else g2 v) with
          | none =>
            simp only [runFilters, hfi, hout, passPending, passFilters]
            exact ⟨h1, h2, by trivial⟩
          | some o =>
            by_cases hlast : i = fs.length - 1
            · simp only [runFilters, hfi, hout, if_pos hlast, passPending, passFilters]
              exact ⟨h1, h2, by trivial⟩
            · simp only [runFilters, hfi, hout, if_neg hlast]
              exact ih fs pending (some o) (i + 1) h1 h2
                (fun j hj => by have := h3 j hj; omega)
                (fun _ j hj => by have := h3 j hj; omega)
        | stream sk f2 buf =>
          have h4s := h4 (by simp)
          cases hbuf : (if sk then [v] else f2 v) with
          | nil =>
            simp only [runFilters, hfi, hbuf, passPending, passFilters]
            refine ⟨h1, ?_, List.length_set fs i _⟩
            rw [List.length_set]
            exact h2
          | cons x xs =>
            have hp2sorted : ((if xs.isEmpty then pending else pending ++ [i])).Sorted
                (· < ·) := by
              by_cases hx : xs.isEmpty
              · rw [if_pos hx]; exact h1
              · rw [if_neg hx]; exact sorted_append_lt _ i h1 h4s
            have hp2le : ∀ j ∈ (if xs.isEmpty then pending else pending ++ [i]),
                j ≤ i := by
              by_cases hx : xs.isEmpty
              · rw [if_pos hx]; exact h3
              · rw [if_neg hx]
                intro j hj
                rcases List.mem_append.mp hj with hj1 | hj2
                · exact h3 j hj1
                · have : j = i := by simpa using hj2
                  omega
            have hp2bound : ∀ j ∈ (if xs.isEmpty then pending else pending ++ [i]),
                j < (fs.set i (.stream sk f2 xs)).length := by
              rw [List.length_set]
              by_cases hx : xs.isEmpty
              · rw [if_pos hx]; exact h2
              · rw [if_neg hx]
                intro j hj
                rcases List.mem_append.mp hj with hj1 | hj2
                · exact h2 j hj1
                · have : j = i := by simpa using hj2
                  omega
            by_cases hlast : i = fs.length - 1
            · simp only [runFilters, hfi, hbuf, if_pos hlast, passPending, passFilters]
              exact ⟨hp2sorted, hp2bound, List.length_set fs i _⟩
            · simp only [runFilters, hfi, hbuf, if_neg hlast]
              have hrec := ih (fs.set i (.stream sk f2 xs)) _ (some x) (i + 1)
                hp2sorted hp2bound (fun j hj => by have := hp2le j hj; omega)
                (fun _ j hj => by have := hp2le j hj; omega)
              refine ⟨hrec.1, hrec.2.1, ?_⟩
              rw [hrec.2.2, List.length_set]

/-- Helper: the while loop of __next__ preserves the iterator invariant. -/
theorem pipeLoop_inv {α : Type} :
    ∀ (fuel : Nat) (st : PipeState α), PipeInv st →
      ∀ r st2, pipeLoop fuel st = some (r, st2) → PipeInv st2 := by
  intro fuel
  induction fuel with
  | zero =>
    intro st hinv r st2 h
    simp [pipeLoop] at h
  | succ f ih =>
    intro st hinv r st2 h
    obtain ⟨hsorted, hbound, hfirst⟩ := hinv
    by_cases hfin : st.finished = true
    · simp only [pipeLoop, if_pos hfin, Option.some.injEq, Prod.mk.injEq] at h
      obtain ⟨-, h2⟩ := h
      exact h2 ▸ ⟨hsorted, hbound, hfirst⟩
    · have hle : ∀ j ∈ st.pending, j ≤ startIndex st := by
        intro j hj
        cases hlast : st.pending.getLast? with
        | none =>
          rw [List.getLast?_eq_none_iff.mp hlast] at hj
          exact absurd hj (List.not_mem_nil j)
        | some y =>
          have hsi : startIndex st = y := by simp [startIndex, hlast]
          rw [hsi]
          exact sorted_le_getLast st.pending hsorted j hj y hlast
      have hzero : (if st.first then st.data else none) ≠ none →
          ∀ j ∈ st.pending, j < startIndex st := by
        intro hne j hj
        by_cases hf : st.first = true
        · rw [hfirst hf] at hj
          exact absurd hj (List.not_mem_nil j)
        · rw [if_neg hf] at hne
          exact absurd rfl hne
      have hrf := runFilters_inv st.filters.length st.filters st.pending
        (if st.first then st.data else none) (startIndex st) hsorted hbound hle hzero
      simp only [pipeLoop, if_neg hfin] at h
      rcases hrr : runFilters st.filters.length st.filters st.pending
          (if st.first then st.data else none) (startIndex st) with
        ⟨v, fs2, p2⟩ | ⟨fs2, p2⟩
      · rw [hrr] at h hrf
        simp only [passPending, passFilters] at hrf
        simp only [Option.some.injEq, Prod.mk.injEq] at h
        obtain ⟨-, h2⟩ := h
        refine h2 ▸ ⟨hrf.1, hrf.2.1, ?_⟩
        intro habs
        exact absurd habs (by simp)
      · rw [hrr] at h hrf
        simp only [passPending, passFilters] at hrf
        refine ih _ ⟨hrf.1, hrf.2.1, ?_⟩ r st2 h
        intro habs
        exact absurd habs (by simp)

/-- Helper: one call of __next__ preserves the iterator invariant. -/
theorem pipeNext_inv {α : Type} (fuel : Nat) (st : PipeState α) (hinv : PipeInv st) :
    ∀ r st2, pipeNext fuel st = some (r, st2) → PipeInv st2 := by
  intro r st2 h
  obtain ⟨hsorted, hbound, hfirst⟩ := hinv
  unfold pipeNext at h
  by_cases hfin : st.finished = true
  · rw [if_pos hfin] at h
    simp only [Option.some.injEq, Prod.mk.injEq] at h
    obtain ⟨-, h2⟩ := h
    exact h2 ▸ ⟨hsorted, hbound, hfirst⟩
  · rw [if_neg hfin] at h
    by_cases hfe : st.first = true ∧ st.filters.isEmpty = true
    · rw [if_pos hfe] at h
      simp only [Option.some.injEq, Prod.mk.injEq] at h
      obtain ⟨-, h2⟩ := h
      refine h2 ▸ ⟨hsorted, hbound, ?_⟩
      intro habs
      exact absurd habs (by simp)
    · rw [if_neg hfe] at h
      exact pipeLoop_inv fuel st ⟨hsorted, hbound, hfirst⟩ r st2 h

/-- C1 counterexample: over two duplicating stream filters, the first pull
leaves both filters pending ([0, 1]); the second pull's start index is 1 =
pending_filters[-1], the latest pending filter in chain order, not the
earliest pending filter 0. -/
theorem C1_counterexample :
    exSt1.pending = [0, 1] ∧ exSt1.pending.head? = some 0 ∧
    startIndex exSt1 = 1 ∧ startIndex exSt1 ≠ 0 := by
  decide

/-- C1 (amended): pending filters are maintained in strictly increasing
chain order; each pull resumes from the latest pending filter in chain
order (pending_filters[-1], the maximum pending index) - not the earliest -
or from filter 0 on the first pull, which feeds the raw input; fresh
iterators satisfy this invariant and every pull preserves it. -/
theorem C1_resume_point (α : Type) (st : PipeState α) (hinv : PipeInv st) :
    (∀ (d : Option α) (fs : Option (List (PFilter α))), PipeInv (mkIterator d fs)) ∧
    (st.first = true → startIndex st = 0) ∧
    (st.pending ≠ [] → startIndex st ∈ st.pending ∧
      ∀ j ∈ st.pending, j ≤ startIndex st) ∧
    (∀ fuel r st2, pipeNext fuel st = some (r, st2) → PipeInv st2) := by
  obtain ⟨hsorted, hbound, hfirst⟩ := hinv
  refine ⟨?_, ?_, ?_, ?_⟩
  · intro d fs
    refine ⟨by simp [mkIterator], by simp [mkIterator], fun _ => rfl⟩
  · intro hf
    simp [startIndex, hfirst hf]
  · intro hne
    have hy : ∃ y, st.pending.getLast? = some y := by
      cases hl : st.pending.getLast? with
      | none => exact absurd (List.getLast?_eq_none_iff.mp hl) hne
      | some y => exact ⟨y, rfl⟩
    obtain ⟨y, hy⟩ := hy
    have hsi : startIndex st = y := by simp [startIndex, hy]
    constructor
    · rw [hsi]
      obtain ⟨ys, hys⟩ := List.getLast?_eq_some_iff.mp hy
      rw [hys]
      simp
    · intro j hj
      rw [hsi]
      exact sorted_le_getLast st.pending hsorted j hj y hy
  · intro fuel r st2 h
    exact pipeNext_inv fuel st ⟨hsorted, hbound, hfirst⟩ r st2 h

/-- C1 witness: the resume-point fact at the concrete reachable state after
the first pull of the duplicating pipeline: the resume index 1 is the
largest pending index. -/
theorem C1_witness :
    startIndex exSt1 ∈ exSt1.pending ∧
      ∀ j ∈ exSt1.pending, j ≤ startIndex exSt1 := by
  exact (C1_resume_point Nat exSt1 (by refine ⟨by decide, by decide, by decide⟩)).2.2.1
    (by decide)

end Seppl
